import Mathlib

/-!
Shallow embedding of the overlay routing core (chain/network/src/routing.rs)
and verification of its specification claims.

Machine integers: `u64` / `usize` values are modelled as `Nat`; arithmetic that
can overflow in the source (`nonce += 1`, round-robin counter increments) is
taken modulo `2 ^ 64`.  Rust `HashMap`s are modelled extensionally as a lookup
function together with the list of keys; `HashSet`s are modelled as duplicate-free
lists in iteration order.
-/

namespace NearRouting

/-- Number of values of a 64-bit machine integer. -/
def U64 : Nat := 2 ^ 64

/-!
Peer identifiers (public keys with the total order of their canonical
encoding), account identifiers and secret keys are all modelled as plain
natural numbers; the public key matching a secret key is the same number
(any injective key-derivation would do for the model).
-/

/-- Modelled from the spec: the collision-resistant digest produced by
the canonical edge hash H(peer0 parallel peer1 parallel nonce-as-u64-LE), section 6.
near_primitives::hash::hash is not under src, so the digest of the
fixed-width-encoded buffer is modelled as the triple of its three fields,
which is injective exactly as a collision-free hash of injectively encoded
input is. -/
structure CryptoHash where
  h0 : Nat
  h1 : Nat
  h2 : Nat
deriving DecidableEq, Repr

/-- Modelled from the spec: signatures (near_crypto is not under src).
Section 6 requires sign and verify such that signing then verifying with the
matching key succeeds and verification with any other key fails; a signature
is modelled symbolically as the signing key together with the signed digest. -/
structure Signature where
  key : Nat
  data : CryptoHash
deriving DecidableEq, Repr

/-- Modelled from the spec: Nat::sign of section 6. -/
def sign (sk : Nat) (data : CryptoHash) : Signature :=
  { key := sk, data := data }

/-- Modelled from the spec: Signature::verify of section 6; the public key of
a secret key sk is sk itself in this model. -/
def Signature.sigVerify (s : Signature) (data : CryptoHash) (pk : Nat) : Bool :=
  s.key == pk && s.data == data

/-- Status of the edge (routing.rs, enum EdgeType). -/
inductive EdgeType where
  | Added
  | Removed
deriving DecidableEq, Repr

/-- Edge object (routing.rs, struct Edge). -/
structure Edge where
  peer0 : Nat
  peer1 : Nat
  nonce : Nat
  signature0 : Signature
  signature1 : Signature
  removal_info : Option (Bool × Signature)
deriving DecidableEq, Repr

namespace Edge

/-- Edge::build_hash: hash of peer0, peer1 and the little-endian nonce. -/
def build_hash (peer0 peer1 : Nat) (nonce : Nat) : CryptoHash :=
  { h0 := peer0, h1 := peer1, h2 := nonce }

/-- Edge::key: canonical ordering of an unordered pair. -/
def key (peer0 peer1 : Nat) : Nat × Nat :=
  if peer0 < peer1 then (peer0, peer1) else (peer1, peer0)

/-- Edge::new: create an addition edge, swapping into canonical order. -/
def new (peer0 peer1 : Nat) (nonce : Nat)
    (signature0 signature1 : Signature) : Edge :=
  if peer0 < peer1 then
    { peer0 := peer0, peer1 := peer1, nonce := nonce,
      signature0 := signature0, signature1 := signature1, removal_info := none }
  else
    { peer0 := peer1, peer1 := peer0, nonce := nonce,
      signature0 := signature1, signature1 := signature0, removal_info := none }

/-- Edge::hash. -/
def hash (e : Edge) : CryptoHash :=
  build_hash e.peer0 e.peer1 e.nonce

/-- Edge::prev_hash. -/
def prev_hash (e : Edge) : CryptoHash :=
  build_hash e.peer0 e.peer1 (e.nonce - 1)

/-- Edge::edge_type: Added iff the nonce is odd. -/
def edge_type (e : Edge) : EdgeType :=
  if e.nonce % 2 == 1 then EdgeType.Added else EdgeType.Removed

/-- Edge::next_nonce. -/
def next_nonce (e : Edge) : Nat :=
  if e.nonce % 2 == 1 then (e.nonce + 2) % U64 else (e.nonce + 1) % U64

/-- Edge::verify. -/
def verify (e : Edge) : Bool :=
  if e.peer1 < e.peer0 then false
  else
    match e.edge_type with
    | EdgeType.Added =>
        e.removal_info.isNone
          && e.signature0.sigVerify e.hash e.peer0
          && e.signature1.sigVerify e.hash e.peer1
    | EdgeType.Removed =>
        if e.nonce == 0 then false
        else if !(e.signature0.sigVerify e.prev_hash e.peer0)
                || !(e.signature1.sigVerify e.prev_hash e.peer1) then false
        else
          match e.removal_info with
          | some (party, signature) =>
              signature.sigVerify e.hash (if party then e.peer0 else e.peer1)
          | none => false

/-- Edge::remove_edge: create the removal edge from an added edge.  The
source asserts that the receiver is an Added edge; the assertion failure
(panic) is modelled as `none`.  The nonce increment wraps at 2 ^ 64 as u64
arithmetic does. -/
def remove_edge (e : Edge) (me : Nat) (sk : Nat) : Option Edge :=
  if e.edge_type = EdgeType.Added then
    let nonce := (e.nonce + 1) % U64
    let meIsPeer0 := e.peer0 == me
    let signature := sign sk (build_hash e.peer0 e.peer1 nonce)
    some { e with nonce := nonce, removal_info := some (meIsPeer0, signature) }
  else
    none

/-- Edge::get_pair. -/
def get_pair (e : Edge) : Nat × Nat :=
  (e.peer0, e.peer1)

/-- Edge::contains_peer. -/
def contains_peer (e : Edge) (peer_id : Nat) : Bool :=
  e.peer0 == peer_id || e.peer1 == peer_id

end Edge

end NearRouting

namespace NearRouting

/-! ### Helper lemmas about Edge.verify -/

theorem edge_type_added_iff (e : Edge) : e.edge_type = EdgeType.Added ↔ e.nonce % 2 = 1 := by
  unfold Edge.edge_type
  by_cases h : e.nonce % 2 = 1 <;> simp [h]

theorem edge_type_removed_iff (e : Edge) : e.edge_type = EdgeType.Removed ↔ e.nonce % 2 = 0 := by
  unfold Edge.edge_type
  rcases Nat.mod_two_eq_zero_or_one e.nonce with h | h <;> simp [h]

theorem verify_not_lt (e : Edge) (hv : e.verify = true) : ¬ e.peer1 < e.peer0 := by
  intro h
  unfold Edge.verify at hv
  rw [if_pos h] at hv
  exact Bool.false_ne_true hv

theorem verify_added_parts (e : Edge) (hadd : e.edge_type = EdgeType.Added)
    (hv : e.verify = true) :
    e.removal_info = none ∧
    e.signature0.sigVerify e.hash e.peer0 = true ∧
    e.signature1.sigVerify e.hash e.peer1 = true := by
  unfold Edge.verify at hv
  rw [hadd] at hv
  by_cases h : e.peer1 < e.peer0
  · rw [if_pos h] at hv
    exact absurd hv (by simp)
  · rw [if_neg h] at hv
    simp only [Bool.and_eq_true, Option.isNone_iff_eq_none] at hv
    exact ⟨hv.1.1, hv.1.2, hv.2⟩

end NearRouting

namespace NearRouting

theorem verify_removed_parts (e : Edge) (hrem : e.edge_type = EdgeType.Removed)
    (hv : e.verify = true) :
    e.nonce ≠ 0 ∧
    e.signature0.sigVerify e.prev_hash e.peer0 = true ∧
    e.signature1.sigVerify e.prev_hash e.peer1 = true ∧
    ∃ party s, e.removal_info = some (party, s) ∧
      s.sigVerify e.hash (if party then e.peer0 else e.peer1) = true := by
  unfold Edge.verify at hv
  rw [hrem] at hv
  by_cases h : e.peer1 < e.peer0
  · rw [if_pos h] at hv
    exact absurd hv (by simp)
  · rw [if_neg h] at hv
    by_cases h0 : (e.nonce == 0) = true
    · rw [if_pos h0] at hv
      exact absurd hv (by simp)
    · rw [if_neg h0] at hv
      by_cases hs : (!(e.signature0.sigVerify e.prev_hash e.peer0)
          || !(e.signature1.sigVerify e.prev_hash e.peer1)) = true
      · rw [if_pos hs] at hv
        exact absurd hv (by simp)
      · rw [if_neg hs] at hv
        simp only [Bool.or_eq_true, Bool.not_eq_true', not_or, Bool.not_eq_false] at hs
        refine ⟨by simpa using h0, hs.1, hs.2, ?_⟩
        rcases hE : e.removal_info with _ | ⟨party, s⟩
        · rw [hE] at hv
          exact absurd hv (by simp)
        · rw [hE] at hv
          exact ⟨party, s, rfl, hv⟩

/-- Self-loop edge at peer 5 with both signatures by peer 5. -/
def edgeSelfLoop : Edge :=
  { peer0 := 5, peer1 := 5, nonce := 1,
    signature0 := sign 5 (Edge.build_hash 5 5 1),
    signature1 := sign 5 (Edge.build_hash 5 5 1),
    removal_info := none }

/-- C6 counterexample: verify only rejects peer0 strictly greater than peer1,
so an edge with peer0 = peer1 and valid signatures verifies true, refuting the
claim that verify returns false for every edge with peer0 not strictly below
peer1. -/
theorem verify_self_loop_cex :
    edgeSelfLoop.verify = true ∧ ¬ edgeSelfLoop.peer0 < edgeSelfLoop.peer1 := by
  constructor
  · decide
  · decide

/-- C6 (amended): verify returns false for every edge whose peer0 is strictly
greater than peer1; the equal-endpoints case is not rejected. -/
theorem verify_peer_order_amended (e : Edge) (h : e.peer1 < e.peer0) :
    e.verify = false := by
  unfold Edge.verify
  rw [if_pos h]

/-- Witness for the amended C6 theorem at a concrete out-of-order edge. -/
theorem verify_peer_order_amended_witness :
    (Edge.mk 3 2 1 (sign 3 (Edge.build_hash 3 2 1))
      (sign 2 (Edge.build_hash 3 2 1)) none).verify = false :=
  verify_peer_order_amended _ (by decide)

/-- Removed edge whose removal signature is by peer1 and whose party flag is
false. -/
def edgeRemovedPartyCex : Edge :=
  { peer0 := 0, peer1 := 1, nonce := 2,
    signature0 := sign 0 (Edge.build_hash 0 1 1),
    signature1 := sign 1 (Edge.build_hash 0 1 1),
    removal_info := some (false, sign 1 (Edge.build_hash 0 1 2)) }

/-- C3 counterexample: a Removed edge with party flag false and removal
signature by peer1 verifies true, while the removal signature does not verify
under peer0's key; so the claim that the flag false indicates peer0 is false
of the code. -/
theorem verify_removed_party_cex :
    edgeRemovedPartyCex.verify = true ∧
    edgeRemovedPartyCex.edge_type = EdgeType.Removed ∧
    edgeRemovedPartyCex.removal_info =
      some (false, sign 1 (Edge.build_hash 0 1 2)) ∧
    (sign 1 (Edge.build_hash 0 1 2)).sigVerify edgeRemovedPartyCex.hash
      edgeRemovedPartyCex.peer0 = false := by
  decide

/-- C3 (amended): when verify accepts a Removed edge, sig_remove is a valid
signature over the removal hash at the current even nonce under the key of the
indicated party, where the party flag true indicates peer0 and false indicates
peer1 (the opposite polarity to the claim). -/
theorem verify_removed_indicated_party (e : Edge)
    (hrem : e.edge_type = EdgeType.Removed) (hv : e.verify = true) :
    ∃ party s, e.removal_info = some (party, s) ∧
      s.sigVerify e.hash (if party then e.peer0 else e.peer1) = true := by
  obtain ⟨-, -, -, h⟩ := verify_removed_parts e hrem hv
  exact h

/-- Removed edge whose removal signature is by peer0 and whose party flag is
true. -/
def edgeRemovedOk : Edge :=
  { peer0 := 0, peer1 := 1, nonce := 2,
    signature0 := sign 0 (Edge.build_hash 0 1 1),
    signature1 := sign 1 (Edge.build_hash 0 1 1),
    removal_info := some (true, sign 0 (Edge.build_hash 0 1 2)) }

/-- Witness for the amended C3 theorem at a concrete valid Removed edge. -/
theorem verify_removed_indicated_party_witness :
    ∃ party s, edgeRemovedOk.removal_info = some (party, s) ∧
      s.sigVerify edgeRemovedOk.hash
        (if party then edgeRemovedOk.peer0 else edgeRemovedOk.peer1) = true :=
  verify_removed_indicated_party edgeRemovedOk (by decide) (by decide)

/-- C10: Edge::remove_edge asserts that its receiver is an Added edge; the
assertion panic (modelled as the result none) happens exactly when the
receiver's nonce is even, and the call is panic-free exactly when the nonce
is odd. -/
theorem remove_edge_panic_iff_even (e : Edge) (me : Nat) (sk : Nat) :
    e.remove_edge me sk = none ↔ e.nonce % 2 = 0 := by
  unfold Edge.remove_edge
  rcases Nat.mod_two_eq_zero_or_one e.nonce with h | h
  · have ht : e.edge_type = EdgeType.Removed := (edge_type_removed_iff e).mpr h
    have hne : ¬ e.edge_type = EdgeType.Added := by rw [ht]; simp
    rw [if_neg hne]
    simp [h]
  · have ht : e.edge_type = EdgeType.Added := (edge_type_added_iff e).mpr h
    rw [if_pos ht]
    simp [h]

end NearRouting

namespace NearRouting

/-- Added edge at the maximal odd u64 nonce. -/
def edgeMaxNonce : Edge :=
  { peer0 := 0, peer1 := 1, nonce := U64 - 1,
    signature0 := sign 0 (Edge.build_hash 0 1 (U64 - 1)),
    signature1 := sign 1 (Edge.build_hash 0 1 (U64 - 1)),
    removal_info := none }

/-- C7 counterexample: at the maximal odd u64 nonce 2 ^ 64 - 1 the nonce
increment of remove_edge overflows (wrapping to 0 under u64 semantics), so the
resulting edge does not carry nonce n + 1 and fails verify, refuting the claim
for this Added, distinct-endpoint, verifying edge. -/
theorem remove_edge_wrap_cex :
    edgeMaxNonce.verify = true ∧
    edgeMaxNonce.nonce % 2 = 1 ∧
    edgeMaxNonce.peer0 ≠ edgeMaxNonce.peer1 ∧
    (edgeMaxNonce.remove_edge 0 0).map (fun e2 => (e2.nonce, e2.verify)) =
      some (0, false) ∧
    edgeMaxNonce.nonce + 1 ≠ 0 := by
  refine ⟨rfl, by decide, by decide, rfl, by decide⟩

/-- C7 (amended): for every Added edge with distinct endpoints that verifies,
and either endpoint with its matching secret key, remove_edge yields a Removed
edge at nonce n + 1 with both addition signatures unchanged that verifies,
provided n + 1 does not overflow u64. -/
theorem remove_edge_roundtrip (e : Edge) (me : Nat) (sk : Nat)
    (hodd : e.nonce % 2 = 1) (hne : e.peer0 ≠ e.peer1) (hv : e.verify = true)
    (hme : me = e.peer0 ∨ me = e.peer1) (hsk : sk = me)
    (hbound : e.nonce + 1 < U64) :
    ∃ e2, e.remove_edge me sk = some e2 ∧
      e2.edge_type = EdgeType.Removed ∧
      e2.nonce = e.nonce + 1 ∧
      e2.signature0 = e.signature0 ∧
      e2.signature1 = e.signature1 ∧
      e2.verify = true := by
  have hadd : e.edge_type = EdgeType.Added := (edge_type_added_iff e).mpr hodd
  obtain ⟨hrinfo, hs0, hs1⟩ := verify_added_parts e hadd hv
  have hnlt : ¬ e.peer1 < e.peer0 := verify_not_lt e hv
  have hmod : (e.nonce + 1) % U64 = e.nonce + 1 := Nat.mod_eq_of_lt hbound
  unfold Edge.remove_edge
  rw [if_pos hadd]
  simp only [hmod]
  refine ⟨_, rfl, ?_, ?_, rfl, rfl, ?_⟩
  · exact (edge_type_removed_iff _).mpr (by simp; omega)
  · rfl
  · have hty : ({ e with
        nonce := e.nonce + 1,
        removal_info := some (e.peer0 == me,
          sign sk (Edge.build_hash e.peer0 e.peer1 (e.nonce + 1))) } :
          Edge).edge_type = EdgeType.Removed :=
      (edge_type_removed_iff _).mpr (by simp; omega)
    have h2 : (e.nonce + 1) % 2 = 0 := by omega
    have hs0x : e.signature0.sigVerify (Edge.build_hash e.peer0 e.peer1 e.nonce) e.peer0
        = true := by
      simpa [Edge.hash] using hs0
    have hs1x : e.signature1.sigVerify (Edge.build_hash e.peer0 e.peer1 e.nonce) e.peer1
        = true := by
      simpa [Edge.hash] using hs1
    have hp0 : e.signature0.key = e.peer0 ∧
        e.signature0.data = Edge.build_hash e.peer0 e.peer1 e.nonce := by
      simpa [Signature.sigVerify] using hs0x
    have hp1 : e.signature1.key = e.peer1 ∧
        e.signature1.data = Edge.build_hash e.peer0 e.peer1 e.nonce := by
      simpa [Signature.sigVerify] using hs1x
    rcases hme with hme | hme
    · subst hsk
      subst hme
      simp [Edge.verify, Edge.edge_type, Edge.prev_hash, Edge.hash, h2, hnlt,
        hp0.1, hp0.2, hp1.1, hp1.2, Signature.sigVerify, sign]
    · subst hsk
      subst hme
      have hb : (e.peer0 == e.peer1) = false := by simpa using hne
      simp [Edge.verify, Edge.edge_type, Edge.prev_hash, Edge.hash, h2, hnlt,
        hp0.1, hp0.2, hp1.1, hp1.2, hb, Signature.sigVerify, sign]

end NearRouting

namespace NearRouting

/-- Concrete verifying Added edge between peers 0 and 1 at nonce 1. -/
def edgeAdded01 : Edge :=
  { peer0 := 0, peer1 := 1, nonce := 1,
    signature0 := sign 0 (Edge.build_hash 0 1 1),
    signature1 := sign 1 (Edge.build_hash 0 1 1),
    removal_info := none }

/-- Witness for the amended C7 theorem at a concrete Added edge. -/
theorem remove_edge_roundtrip_witness :
    ∃ e2, edgeAdded01.remove_edge 0 0 = some e2 ∧
      e2.edge_type = EdgeType.Removed ∧
      e2.nonce = edgeAdded01.nonce + 1 ∧
      e2.signature0 = edgeAdded01.signature0 ∧
      e2.signature1 = edgeAdded01.signature1 ∧
      e2.verify = true :=
  remove_edge_roundtrip edgeAdded01 0 0 (by decide) (by decide) (by decide)
    (Or.inl (by decide)) (by decide) (by decide)

end NearRouting

namespace NearRouting

/-- A Rust HashMap (or a map whose values are HashSets) is modelled
extensionally: a lookup function together with its list of keys. -/
structure HMap (α β : Type) where
  find : α → Option β
  keys : List α

namespace HMap

def empty {α β : Type} : HMap α β :=
  { find := fun _ => none, keys := [] }

def insert {α β : Type} [DecidableEq α] (m : HMap α β) (k : α) (v : β) :
    HMap α β :=
  { find := fun x => if x = k then some v else m.find x,
    keys := m.keys.insert k }

def size {α β : Type} (m : HMap α β) : Nat :=
  m.keys.length

end HMap

/-- Modelled from the spec: the account announcement type (crate::types is not
under src); section 3 describes it as a blob containing the account
identifier, a PID and a signed attestation validated externally (an extra
field here, so that distinct announcements for one account exist). -/
structure AnnounceAccount where
  account_id : Nat
  peer_id : Nat
  attestation : Nat
deriving DecidableEq, Repr

/-- routing.rs, enum FindRouteError. -/
inductive FindRouteError where
  | Disconnected
  | PeerNotFound
  | AccountNotFound
  | RouteBackNotFound
deriving DecidableEq, Repr

/-- routing.rs, struct ProcessEdgeResult; the advisory duration is in
milliseconds. -/
structure ProcessEdgeResult where
  new_edge : Bool
  schedule_computation : Option Nat
deriving DecidableEq, Repr

/-- Current view of the network (routing.rs, struct Graph). -/
structure Graph where
  source : Nat
  adjacency : HMap Nat (List Nat)

namespace Graph

def new (source : Nat) : Graph :=
  { source := source, adjacency := HMap.empty }

/-- Graph::contains_edge. -/
def contains_edge (g : Graph) (peer0 peer1 : Nat) : Bool :=
  match g.adjacency.find peer0 with
  | some adj => decide (peer1 ∈ adj)
  | none => false

/-- Graph::add_directed_edge (entry or-insert empty set, then set insert). -/
def add_directed_edge (g : Graph) (peer0 peer1 : Nat) : Graph :=
  { g with adjacency :=
      g.adjacency.insert peer0 (((g.adjacency.find peer0).getD []).insert peer1) }

/-- Graph::remove_directed_edge; the source unwraps the entry, which is
present under the contains_edge guard of its only caller. -/
def remove_directed_edge (g : Graph) (peer0 peer1 : Nat) : Graph :=
  { g with adjacency :=
      g.adjacency.insert peer0 (((g.adjacency.find peer0).getD []).erase peer1) }

/-- Graph::add_edge. -/
def add_edge (g : Graph) (peer0 peer1 : Nat) : Graph :=
  if g.contains_edge peer0 peer1 then g
  else (g.add_directed_edge peer0 peer1).add_directed_edge peer1 peer0

/-- Graph::remove_edge. -/
def remove_edge (g : Graph) (peer0 peer1 : Nat) : Graph :=
  if g.contains_edge peer0 peer1 then
    (g.remove_directed_edge peer0 peer1).remove_directed_edge peer1 peer0
  else g

end Graph

/-- Routing table state (routing.rs, struct RoutingTable).  The route-back
cache is modelled as its list of entries; instants and durations are Nat
milliseconds.  The test-only ping and pong registries are omitted: no claim
mentions them and no modelled operation touches them. -/
structure RoutingTable where
  account_peers : HMap Nat AnnounceAccount
  peer_forwarding : HMap Nat (List Nat)
  edges_info : HMap (Nat × Nat) Edge
  route_back : List (CryptoHash × Nat)
  raw_graph : Graph
  route_nonce : HMap Nat Nat
  recalculation_scheduled : Option Nat

namespace RoutingTable

def new (peer_id : Nat) : RoutingTable :=
  { account_peers := HMap.empty, peer_forwarding := HMap.empty,
    edges_info := HMap.empty, route_back := [],
    raw_graph := Graph.new peer_id, route_nonce := HMap.empty,
    recalculation_scheduled := none }

/-- RoutingTable::account_owner. -/
def account_owner (rt : RoutingTable) (account_id : Nat) :
    Except FindRouteError Nat :=
  match rt.account_peers.find account_id with
  | some announce_account => Except.ok announce_account.peer_id
  | none => Except.error FindRouteError.AccountNotFound

/-- RoutingTable::add_account: HashMap::insert stores the new announcement
and returns the previous one; the boolean is true when there was none or the
previous one equals the new announcement. -/
def add_account (rt : RoutingTable) (announce_account : AnnounceAccount) :
    RoutingTable × Bool :=
  let old := rt.account_peers.find announce_account.account_id
  ({ rt with account_peers :=
      rt.account_peers.insert announce_account.account_id announce_account },
   match old with
   | none => true
   | some old_announce_account => old_announce_account == announce_account)

/-- RoutingTable::contains_account. -/
def contains_account (rt : RoutingTable) (announce_account : AnnounceAccount) :
    Bool :=
  match rt.account_peers.find announce_account.account_id with
  | some cur => cur == announce_account
  | none => false

/-- RoutingTable::find_nonce. -/
def find_nonce (rt : RoutingTable) (edge : Nat × Nat) : Nat :=
  match rt.edges_info.find edge with
  | some x => x.nonce
  | none => 0

end RoutingTable

end NearRouting

namespace NearRouting

/-- First announcement for account 7, owned by peer 1. -/
def ann1 : AnnounceAccount :=
  { account_id := 7, peer_id := 1, attestation := 0 }

/-- Second, distinct announcement for account 7, owned by peer 2. -/
def ann2 : AnnounceAccount :=
  { account_id := 7, peer_id := 2, attestation := 0 }

/-- C2 counterexample: after a first announcement is stored (true) and a
distinct second announcement for the same account is submitted (false), the
HashMap insert has already overwritten the entry, so account_owner resolves
to the second announcement's peer, not the first's. -/
theorem add_account_overwrite_cex :
    ((RoutingTable.new 0).add_account ann1).2 = true ∧
    (((RoutingTable.new 0).add_account ann1).1.add_account ann2).2 = false ∧
    ann1.account_id = ann2.account_id ∧
    ann1 ≠ ann2 ∧
    (((RoutingTable.new 0).add_account ann1).1.add_account ann2).1.account_owner
      7 = Except.ok ann2.peer_id ∧
    ann2.peer_id ≠ ann1.peer_id := by
  refine ⟨rfl, rfl, rfl, by decide, rfl, by decide⟩

/-- C2 (amended): add_account returns true for a new or identical
announcement and false for a conflicting one, but the conflicting insert
overwrites the stored entry, so account_owner afterwards resolves to the
second announcement's peer id, not the first's. -/
theorem add_account_amended (rt : RoutingTable) (a b : AnnounceAccount)
    (hfresh : rt.account_peers.find a.account_id = none)
    (hsame : b.account_id = a.account_id) (hdiff : b ≠ a) :
    (rt.add_account a).2 = true ∧
    ((rt.add_account a).1.add_account a).2 = true ∧
    ((rt.add_account a).1.add_account b).2 = false ∧
    ((rt.add_account a).1.add_account b).1.account_owner a.account_id =
      Except.ok b.peer_id := by
  refine ⟨?_, ?_, ?_, ?_⟩
  · simp [RoutingTable.add_account, hfresh]
  · simp [RoutingTable.add_account, HMap.insert]
  · simp [RoutingTable.add_account, HMap.insert, hsame]
    simpa using fun h => hdiff h.symm
  · simp [RoutingTable.add_account, RoutingTable.account_owner, HMap.insert,
      hsame]

/-- Witness for the amended C2 theorem at concrete announcements. -/
theorem add_account_amended_witness :
    ((RoutingTable.new 0).add_account ann1).2 = true ∧
    (((RoutingTable.new 0).add_account ann1).1.add_account ann1).2 = true ∧
    (((RoutingTable.new 0).add_account ann1).1.add_account ann2).2 = false ∧
    (((RoutingTable.new 0).add_account ann1).1.add_account ann2).1.account_owner
      ann1.account_id = Except.ok ann2.peer_id :=
  add_account_amended (RoutingTable.new 0) ann1 ann2 rfl rfl (by decide)

end NearRouting

namespace NearRouting

/-- RoutingTable::process_edge; `now` is the current instant in milliseconds
(the source reads Instant::now() twice after an accepted edge; within the
single-threaded model both reads are the same instant). -/
def RoutingTable.process_edge (rt : RoutingTable) (edge : Edge) (now : Nat) :
    RoutingTable × ProcessEdgeResult :=
  let key := edge.get_pair
  if rt.find_nonce key ≥ edge.nonce then
    (rt, { new_edge := false, schedule_computation := none })
  else
    let rt1 :=
      match edge.edge_type with
      | EdgeType.Added =>
          { rt with raw_graph := rt.raw_graph.add_edge key.1 key.2 }
      | EdgeType.Removed =>
          { rt with raw_graph := rt.raw_graph.remove_edge key.1 key.2 }
    let rt2 := { rt1 with edges_info := rt1.edges_info.insert key edge }
    let known_routes := min rt2.peer_forwarding.size 1000
    let new_schedule : Option Nat :=
      match rt2.recalculation_scheduled with
      | none => some known_routes
      | some target => if now > target then some known_routes else none
    let rt3 :=
      match new_schedule with
      | some duration =>
          { rt2 with recalculation_scheduled := some (now + duration) }
      | none => rt2
    (rt3, { new_edge := true, schedule_computation := new_schedule })

theorem contains_edge_add_edge (g : Graph) (p0 p1 : Nat) :
    (g.add_edge p0 p1).contains_edge p0 p1 = true := by
  unfold Graph.add_edge
  by_cases hc : g.contains_edge p0 p1 = true
  · rw [if_pos hc]
    exact hc
  · rw [if_neg hc]
    by_cases hp : p0 = p1
    · subst hp
      simp [Graph.contains_edge, Graph.add_directed_edge, HMap.insert,
        List.mem_insert_iff]
    · simp [Graph.contains_edge, Graph.add_directed_edge, HMap.insert, hp,
        List.mem_insert_iff]

theorem contains_edge_remove_edge (g : Graph) (p0 p1 : Nat)
    (hnd : ((g.adjacency.find p0).getD []).Nodup) :
    (g.remove_edge p0 p1).contains_edge p0 p1 = false := by
  unfold Graph.remove_edge
  by_cases hc : g.contains_edge p0 p1 = true
  · rw [if_pos hc]
    by_cases hp : p0 = p1
    · subst hp
      simp [Graph.contains_edge, Graph.remove_directed_edge, HMap.insert]
      intro h
      exact absurd h (List.Nodup.not_mem_erase (hnd.erase p0))
    · simp [Graph.contains_edge, Graph.remove_directed_edge, HMap.insert, hp]
      intro h
      exact absurd h (List.Nodup.not_mem_erase hnd)
  · rw [if_neg hc]
    exact Bool.not_eq_true _ ▸ (Bool.eq_false_iff.mpr hc)

/-- C5: process_edge returns accepted = false and leaves the whole state
unchanged exactly when the stored nonce for the edge's pair (0 when absent)
is at least the incoming nonce; otherwise it returns accepted = true, changes
the state, overwrites edges_info for the pair, and makes the pair present in
the graph adjacency when the nonce is odd and absent when it is even (the
Nodup hypothesis is the HashSet representation invariant for the adjacency
set of peer0). -/
theorem process_edge_spec (rt : RoutingTable) (e : Edge) (now : Nat) :
    (rt.find_nonce e.get_pair ≥ e.nonce →
       rt.process_edge e now = (rt, ProcessEdgeResult.mk false none)) ∧
    (rt.find_nonce e.get_pair < e.nonce →
       (rt.process_edge e now).2.new_edge = true ∧
       (rt.process_edge e now).1 ≠ rt ∧
       (rt.process_edge e now).1.edges_info.find e.get_pair = some e) ∧
    (rt.find_nonce e.get_pair < e.nonce → e.nonce % 2 = 1 →
       (rt.process_edge e now).1.raw_graph.contains_edge e.peer0 e.peer1
         = true) ∧
    (rt.find_nonce e.get_pair < e.nonce → e.nonce % 2 = 0 →
       ((rt.raw_graph.adjacency.find e.peer0).getD []).Nodup →
       (rt.process_edge e now).1.raw_graph.contains_edge e.peer0 e.peer1
         = false) := by
  refine ⟨?_, ?_, ?_, ?_⟩
  · intro hge
    unfold RoutingTable.process_edge
    rw [if_pos hge]
  · intro hlt
    have hnge : ¬ rt.find_nonce e.get_pair ≥ e.nonce := by omega
    have hins : (rt.process_edge e now).1.edges_info.find e.get_pair
        = some e := by
      unfold RoutingTable.process_edge
      rw [if_neg hnge]
      dsimp only
      repeat' split
      all_goals simp [HMap.insert]
    refine ⟨?_, ?_, hins⟩
    · unfold RoutingTable.process_edge
      rw [if_neg hnge]
    · intro heq
      rw [heq] at hins
      have hfn : rt.find_nonce e.get_pair = e.nonce := by
        simp [RoutingTable.find_nonce, hins]
      omega
  · intro hlt hodd
    have hnge : ¬ rt.find_nonce e.get_pair ≥ e.nonce := by omega
    have hadd : e.edge_type = EdgeType.Added := (edge_type_added_iff e).mpr hodd
    unfold RoutingTable.process_edge
    rw [if_neg hnge]
    dsimp only
    rw [hadd]
    dsimp only
    repeat' split
    all_goals exact contains_edge_add_edge rt.raw_graph e.peer0 e.peer1
  · intro hlt heven hnd
    have hnge : ¬ rt.find_nonce e.get_pair ≥ e.nonce := by omega
    have hrem : e.edge_type = EdgeType.Removed :=
      (edge_type_removed_iff e).mpr heven
    unfold RoutingTable.process_edge
    rw [if_neg hnge]
    dsimp only
    rw [hrem]
    dsimp only
    repeat' split
    all_goals exact contains_edge_remove_edge rt.raw_graph e.peer0 e.peer1 hnd

/-- Witness for the C5 theorem: a fresh table accepts a nonce-1 edge, records
it in edges_info and adds the pair to the adjacency. -/
theorem process_edge_spec_witness :
    ((RoutingTable.new 0).process_edge edgeAdded01 0).2.new_edge = true ∧
    ((RoutingTable.new 0).process_edge edgeAdded01 0).1.edges_info.find
      edgeAdded01.get_pair = some edgeAdded01 ∧
    ((RoutingTable.new 0).process_edge edgeAdded01 0).1.raw_graph.contains_edge
      edgeAdded01.peer0 edgeAdded01.peer1 = true :=
  ⟨((process_edge_spec (RoutingTable.new 0) edgeAdded01 0).2.1
      (by decide)).1,
   ((process_edge_spec (RoutingTable.new 0) edgeAdded01 0).2.1
      (by decide)).2.2,
   (process_edge_spec (RoutingTable.new 0) edgeAdded01 0).2.2.1
      (by decide) (by decide)⟩

end NearRouting

namespace NearRouting

/-- routing.rs:18, ROUND_ROBIN_MAX_NONCE_DIFFERENCE_ALLOWED. -/
def RRMAX : Nat := 10

/-- Strict lexicographic order on (nonce, peer) pairs, as Rust's derived Ord
compares tuples. -/
def pairLtB (a b : Nat × Nat) : Bool :=
  decide (a.1 < b.1) || (a.1 == b.1 && decide (a.2 < b.2))

/-- The body of the fold inside find_route_from_peer_id that tracks the
candidate min and max (nonce, peer) pairs. -/
def routeStep (rt : RoutingTable)
    (acc : Option (Nat × Nat) × Option (Nat × Nat)) (peer_id : Nat) :
    Option (Nat × Nat) × Option (Nat × Nat) :=
  let nonce := (rt.route_nonce.find peer_id).getD 0
  let current := (nonce, peer_id)
  match acc with
  | (min_v, max_v) =>
    if min_v.elim true (fun m => pairLtB current m) then
      (some current, max_v)
    else if max_v.elim true (fun m => pairLtB m current) then
      (min_v, some current)
    else
      (min_v, max_v)

/-- The fold of routing.rs:281 over the iteration order of the forwarding
set. -/
def routeMinMax (rt : RoutingTable) (routes : List Nat) :
    Option (Nat × Nat) × Option (Nat × Nat) :=
  routes.foldl (routeStep rt) (none, none)

/-- The route_nonce.entry(next_hop).and_modify(increment).or_insert(1)
update; the usize increment wraps at 2 ^ 64. -/
def RoutingTable.bump_route_nonce (rt : RoutingTable) (next_hop : Nat) :
    RoutingTable :=
  let bumped :=
    match rt.route_nonce.find next_hop with
    | some nonce => (nonce + 1) % U64
    | none => 1
  { rt with route_nonce := rt.route_nonce.insert next_hop bumped }

/-- RoutingTable::find_route_from_peer_id. -/
def RoutingTable.find_route_from_peer_id (rt : RoutingTable)
    (peer_id : Nat) : Except FindRouteError Nat × RoutingTable :=
  match rt.peer_forwarding.find peer_id with
  | none => (Except.error FindRouteError.PeerNotFound, rt)
  | some routes =>
    match routeMinMax rt routes with
    | (none, _) => (Except.error FindRouteError.Disconnected, rt)
    | (some min_v, none) =>
        (Except.ok min_v.2, rt.bump_route_nonce min_v.2)
    | (some min_v, some max_v) =>
        let rt1 :=
          if min_v.1 + RRMAX < max_v.1 then
            let clamped := rt.route_nonce.insert min_v.2 (max_v.1 - RRMAX)
            { rt with route_nonce := clamped }
          else rt
        (Except.ok min_v.2, rt1.bump_route_nonce min_v.2)

/-- crate::types, NatOrHash. -/
inductive NatOrHash where
  | peer (peer_id : Nat)
  | digest (h : CryptoHash)
deriving DecidableEq, Repr

/-- RoutingTable::fetch_route_back: remove the entry for the hash from the
route-back cache and return it. -/
def RoutingTable.fetch_route_back (rt : RoutingTable) (h : CryptoHash) :
    Option Nat × RoutingTable :=
  match rt.route_back.lookup h with
  | some peer_id =>
      let remaining := rt.route_back.filter (fun kv => !(kv.1 == h))
      (some peer_id, { rt with route_back := remaining })
  | none => (none, rt)

/-- RoutingTable::find_route. -/
def RoutingTable.find_route (rt : RoutingTable) (target : NatOrHash) :
    Except FindRouteError Nat × RoutingTable :=
  match target with
  | NatOrHash.peer peer_id => rt.find_route_from_peer_id peer_id
  | NatOrHash.digest h =>
      match rt.fetch_route_back h with
      | (some peer_id, rt1) => (Except.ok peer_id, rt1)
      | (none, rt1) => (Except.error FindRouteError.RouteBackNotFound, rt1)

/-- Neighbor set of a vertex: the `if let Some(neighbors)` lookups of
calculate_distance, with a missing entry read as the empty set. -/
def Graph.adjOf (g : Graph) (v : Nat) : List Nat :=
  (g.adjacency.find v).getD []

/-- The union loop of calculate_distance: insert every element of the
current peer's first-hop set into the target set. -/
def insertAll (adding target : List Nat) : List Nat :=
  adding.foldl (fun acc route => acc.insert route) target

/-- One iteration of the inner `for neighbor in neighbors` loop of
Graph::calculate_distance: discover the neighbor if unseen, then union the
current peer's first-hop set into the neighbor's when the neighbor sits one
layer further. -/
def bfsStep (cur_peer : Nat) (cur_distance : Nat)
    (st : List Nat × HMap Nat Nat × HMap Nat (List Nat))
    (neighbor : Nat) :
    List Nat × HMap Nat Nat × HMap Nat (List Nat) :=
  let queue := st.1
  let distance := st.2.1
  let routes := st.2.2
  let next :=
    if (distance.find neighbor).isNone then
      (queue ++ [neighbor], distance.insert neighbor (cur_distance + 1),
       routes.insert neighbor [])
    else
      (queue, distance, routes)
  let queue1 := next.1
  let distance1 := next.2.1
  let routes1 := next.2.2
  if distance1.find neighbor = some (cur_distance + 1) then
    let adding_routes := (routes1.find cur_peer).getD []
    let target_routes := insertAll adding_routes ((routes1.find neighbor).getD [])
    (queue1, distance1, routes1.insert neighbor target_routes)
  else
    (queue1, distance1, routes1)

/-- The `while head < queue.len()` loop of Graph::calculate_distance.  The
growing vector with its head index is modelled as the list of still-pending
elements (freshly discovered vertices are appended at the back).  One fuel
unit is spent per dequeue; calculate_distance passes enough fuel for every
graph whose adjacency is a coherent symmetric map, as proved below. -/
def bfsLoop (g : Graph) :
    Nat → List Nat → HMap Nat Nat → HMap Nat (List Nat) →
    HMap Nat Nat × HMap Nat (List Nat)
  | _, [], distance, routes => (distance, routes)
  | 0, _ :: _, distance, routes => (distance, routes)
  | fuel + 1, cur_peer :: rest, distance, routes =>
    let cur_distance := (distance.find cur_peer).getD 0
    let st := (g.adjOf cur_peer).foldl (bfsStep cur_peer cur_distance)
      (rest, distance, routes)
    bfsLoop g fuel st.1 st.2.1 st.2.2

/-- Graph::calculate_distance.  The final
`into_iter().filter(non-empty).collect()` is modelled extensionally: the
returned map answers lookups through the filter and its key list keeps the
keys with non-empty first-hop sets. -/
def Graph.calculate_distance (g : Graph) : HMap Nat (List Nat) :=
  let distance0 : HMap Nat Nat := HMap.empty.insert g.source 0
  let init := (g.adjOf g.source).foldl
    (fun (st : List Nat × HMap Nat Nat × HMap Nat (List Nat))
        neighbor =>
      (st.1 ++ [neighbor], st.2.1.insert neighbor 1,
       st.2.2.insert neighbor [neighbor]))
    ([], distance0, (HMap.empty : HMap Nat (List Nat)))
  let final := bfsLoop g g.adjacency.keys.length init.1 init.2.1 init.2.2
  let routes := final.2
  let fmFind : Nat → Option (List Nat) := fun w =>
    match routes.find w with
    | some hops => if hops.isEmpty then none else some hops
    | none => none
  let fmKeys :=
    routes.keys.filter (fun w => !((routes.find w).getD []).isEmpty)
  { find := fmFind, keys := fmKeys }

/-- RoutingTable::update. -/
def RoutingTable.update (rt : RoutingTable) : RoutingTable :=
  { rt with
      recalculation_scheduled := none
      peer_forwarding := rt.raw_graph.calculate_distance }

end NearRouting

namespace NearRouting

theorem calc_find_nonempty (g : Graph) (w : Nat) (hops : List Nat)
    (h : (g.calculate_distance).find w = some hops) : hops ≠ [] := by
  intro hnil
  subst hnil
  unfold Graph.calculate_distance at h
  dsimp only at h
  split at h
  · split at h
    · simp at h
    · rename_i hempty
      rw [Option.some_inj] at h
      subst h
      simp at hempty
  · simp at h

theorem routeStep_min_isSome (rt : RoutingTable)
    (acc : Option (Nat × Nat) × Option (Nat × Nat)) (p : Nat)
    (h : acc.1.isSome) : ((routeStep rt acc p).1).isSome := by
  rcases acc with ⟨mn, mx⟩
  unfold routeStep
  dsimp only
  split
  · simp
  · split
    · simpa using h
    · simpa using h

theorem routeMinMax_min_isSome (rt : RoutingTable) (l : List Nat)
    (hl : l ≠ []) : ((routeMinMax rt l).1).isSome := by
  have aux : ∀ (xs : List Nat)
      (acc : Option (Nat × Nat) × Option (Nat × Nat)),
      acc.1.isSome → ((xs.foldl (routeStep rt) acc).1).isSome := by
    intro xs
    induction xs with
    | nil => intro acc h; exact h
    | cons x xs ih =>
        intro acc h
        exact ih (routeStep rt acc x) (routeStep_min_isSome rt acc x h)
  rcases l with _ | ⟨x, xs⟩
  · exact absurd rfl hl
  · unfold routeMinMax
    rw [List.foldl_cons]
    apply aux
    unfold routeStep
    simp

/-- C8: whenever the forwarding map is the output of update (that is, of
calculate_distance, which filters out empty first-hop sets),
find_route_from_peer_id cannot return the Disconnected error for any target:
the empty-candidate branch of the fold is unreachable. -/
theorem update_no_disconnected (rt : RoutingTable) (g : Graph)
    (hfm : rt.peer_forwarding = g.calculate_distance) (target : Nat) :
    (rt.find_route_from_peer_id target).1 ≠
      Except.error FindRouteError.Disconnected := by
  unfold RoutingTable.find_route_from_peer_id
  rcases hh : rt.peer_forwarding.find target with _ | routes
  · simp
  · have hne : routes ≠ [] := by
      apply calc_find_nonempty g target routes
      rw [← hfm]
      exact hh
    have hmin := routeMinMax_min_isSome rt routes hne
    rcases hmm : routeMinMax rt routes with ⟨mn, mx⟩
    rcases mn with _ | min_v
    · rw [hmm] at hmin
      simp at hmin
    · rcases mx with _ | max_v <;> simp [hmm]

/-- Witness for the C8 theorem: a freshly updated table never answers
Disconnected. -/
theorem update_no_disconnected_witness :
    (((RoutingTable.new 0).update).find_route_from_peer_id 5).1 ≠
      Except.error FindRouteError.Disconnected :=
  update_no_disconnected ((RoutingTable.new 0).update)
    (RoutingTable.new 0).raw_graph rfl 5

/-- Routing table of the round-robin clamp scenario: forwarding set for
target 3 held in the given iteration order over peers 1 (counter 0) and 2
(counter 100). -/
def rtClampOrder (order : List Nat) : RoutingTable :=
  { RoutingTable.new 9 with
      peer_forwarding := HMap.empty.insert 3 order
      route_nonce := (HMap.empty.insert 1 0).insert 2 100 }

/-- C1: the min-max fold of find_route_from_peer_id drops the previous
minimum when a smaller pair displaces it, so with the forwarding set iterated
in the order peer 2 (counter 100) then peer 1 (counter 0) the fold ends with
no max candidate, the clamp branch is skipped and peer 1's counter becomes 1,
not 91; with the opposite iteration order the claimed clamp to 91 does
happen.  The HashSet iteration order is arbitrary, so the code cannot
guarantee the claimed min-max-clamp behavior. -/
theorem find_route_clamp_order_bug :
    ((rtClampOrder [2, 1]).find_route_from_peer_id 3).1 = Except.ok 1 ∧
    ((rtClampOrder [2, 1]).find_route_from_peer_id 3).2.route_nonce.find 1
      = some 1 ∧
    (routeMinMax (rtClampOrder [2, 1]) [2, 1]).2 = none ∧
    ((rtClampOrder [1, 2]).find_route_from_peer_id 3).1 = Except.ok 1 ∧
    ((rtClampOrder [1, 2]).find_route_from_peer_id 3).2.route_nonce.find 1
      = some 91 := by
  refine ⟨rfl, by decide, by decide, rfl, by decide⟩

end NearRouting

namespace NearRouting

/-- N successive find_route calls toward the same peer target, collecting the
results and threading the state. -/
def iterFindRoute (rt : RoutingTable) (target : Nat) :
    Nat → List (Except FindRouteError Nat) × RoutingTable
  | 0 => ([], rt)
  | n + 1 =>
    let r := rt.find_route_from_peer_id target
    let rest := iterFindRoute r.2 target n
    (r.1 :: rest.1, rest.2)

/-- Whether a find_route result selected the hop h. -/
def isOkFor (h : Nat) : Except FindRouteError Nat → Bool
  | Except.ok p => p == h
  | Except.error _ => false

/-- Routing table with forwarding set for target 3 over hops 1 and 2, where
hop 1 starts at counter 0 and hop 2 at counter 5. -/
def rtUnfair : RoutingTable :=
  { RoutingTable.new 9 with
      peer_forwarding := HMap.empty.insert 3 [1, 2]
      route_nonce := (HMap.empty.insert 1 0).insert 2 5 }

/-- C9 counterexample: with two equal-cost hops whose round-robin counters
start unequal (0 and 5, a spread below the clamp threshold), two successive
calls both pick hop 1, which is chosen 2 times although with N = 2 and k = 2
both the floor and the ceiling of N / k are 1; so the fairness claim fails
without an equal-counters assumption on the starting state. -/
theorem round_robin_unfair_cex :
    (iterFindRoute rtUnfair 3 2).1.countP (isOkFor 1) = 2 ∧
    (iterFindRoute rtUnfair 3 2).1.countP (isOkFor 2) = 0 ∧
    (2 : Nat) / 2 = 1 ∧ (2 + 2 - 1 : Nat) / 2 = 1 := by
  refine ⟨by decide, by decide, by decide, by decide⟩

end NearRouting

namespace NearRouting

/-- The round-robin counter of a hop as find_route_from_peer_id reads it. -/
def hopNonce (rt : RoutingTable) (p : Nat) : Nat :=
  (rt.route_nonce.find p).getD 0

/-- The (nonce, peer) pair the fold builds for a hop. -/
def pairOf (rt : RoutingTable) (p : Nat) : Nat × Nat :=
  (hopNonce rt p, p)

theorem pairLtB_iff (a b : Nat × Nat) :
    pairLtB a b = true ↔ (a.1 < b.1 ∨ (a.1 = b.1 ∧ a.2 < b.2)) := by
  simp [pairLtB]

theorem pairLtB_false_iff (a b : Nat × Nat) :
    pairLtB a b = false ↔ (b.1 < a.1 ∨ (b.1 = a.1 ∧ b.2 ≤ a.2)) := by
  constructor
  · intro h
    have h2 : ¬ (a.1 < b.1 ∨ (a.1 = b.1 ∧ a.2 < b.2)) := by
      rw [← pairLtB_iff a b, h]
      simp
    omega
  · intro h
    have h2 : ¬ pairLtB a b = true := by
      rw [pairLtB_iff]
      omega
    simpa using h2

theorem routeStep_fst_some (rt : RoutingTable)
    (mx : Option (Nat × Nat)) (m0 : Nat × Nat) (x : Nat) :
    (routeStep rt (some m0, mx) x).1 =
      some (if pairLtB (pairOf rt x) m0 then pairOf rt x else m0) := by
  simp only [pairOf, hopNonce]
  unfold routeStep
  dsimp only
  split
  · rename_i hc
    simp only [Option.elim] at hc
    rw [if_pos hc]
  · rename_i hc
    simp only [Option.elim] at hc
    rw [if_neg hc]
    split
    · rfl
    · rfl

theorem fold_min_spec (rt : RoutingTable) (xs : List Nat) :
    ∀ (acc : Option (Nat × Nat) × Option (Nat × Nat))
      (m0 : Nat × Nat), acc.1 = some m0 →
      ∃ m, (xs.foldl (routeStep rt) acc).1 = some m ∧
        (m = m0 ∨ ∃ p ∈ xs, m = pairOf rt p) ∧
        pairLtB m0 m = false ∧
        ∀ p ∈ xs, pairLtB (pairOf rt p) m = false := by
  induction xs with
  | nil =>
      intro acc m0 h
      refine ⟨m0, by simpa using h, Or.inl rfl, ?_, by simp⟩
      rw [pairLtB_false_iff]
      omega
  | cons x xs ih =>
      intro acc m0 h
      rcases acc with ⟨mn, mx⟩
      simp only at h
      subst h
      rw [List.foldl_cons]
      by_cases hlt : pairLtB (pairOf rt x) m0 = true
      · have hstep : (routeStep rt (some m0, mx) x).1 = some (pairOf rt x) := by
          rw [routeStep_fst_some, if_pos hlt]
        obtain ⟨m, hm, hmem, hle0, hall⟩ :=
          ih (routeStep rt (some m0, mx) x) (pairOf rt x) hstep
        refine ⟨m, hm, ?_, ?_, ?_⟩
        · rcases hmem with rfl | ⟨p, hp, rfl⟩
          · exact Or.inr ⟨x, List.mem_cons_self x xs, rfl⟩
          · exact Or.inr ⟨p, List.mem_cons_of_mem x hp, rfl⟩
        · rw [pairLtB_false_iff]
          rw [pairLtB_false_iff] at hle0
          rw [pairLtB_iff] at hlt
          omega
        · intro p hp
          rcases List.mem_cons.mp hp with rfl | hp
          · exact hle0
          · exact hall p hp
      · have hstep : (routeStep rt (some m0, mx) x).1 = some m0 := by
          rw [routeStep_fst_some, if_neg hlt]
        obtain ⟨m, hm, hmem, hle0, hall⟩ :=
          ih (routeStep rt (some m0, mx) x) m0 hstep
        refine ⟨m, hm, ?_, hle0, ?_⟩
        · rcases hmem with rfl | ⟨p, hp, rfl⟩
          · exact Or.inl rfl
          · exact Or.inr ⟨p, List.mem_cons_of_mem x hp, rfl⟩
        · intro p hp
          rcases List.mem_cons.mp hp with rfl | hp
          · rw [pairLtB_false_iff]
            rw [pairLtB_false_iff] at hle0
            have hlt2 : pairLtB (pairOf rt p) m0 = false :=
              Bool.not_eq_true _ ▸ hlt
            rw [pairLtB_false_iff] at hlt2
            omega
          · exact hall p hp

theorem routeMinMax_min_spec (rt : RoutingTable) (l : List Nat)
    (hl : l ≠ []) :
    ∃ m, (routeMinMax rt l).1 = some m ∧ (∃ p ∈ l, m = pairOf rt p) ∧
      ∀ p ∈ l, pairLtB (pairOf rt p) m = false := by
  rcases l with _ | ⟨x, xs⟩
  · exact absurd rfl hl
  · unfold routeMinMax
    rw [List.foldl_cons]
    have hstep : (routeStep rt (none, none) x).1 = some (pairOf rt x) := by
      unfold routeStep
      simp [pairOf, hopNonce]
    obtain ⟨m, hm, hmem, hle0, hall⟩ :=
      fold_min_spec rt xs (routeStep rt (none, none) x) (pairOf rt x) hstep
    refine ⟨m, hm, ?_, ?_⟩
    · rcases hmem with rfl | ⟨p, hp, rfl⟩
      · exact ⟨x, List.mem_cons_self x xs, rfl⟩
      · exact ⟨p, List.mem_cons_of_mem x hp, rfl⟩
    · intro p hp
      rcases List.mem_cons.mp hp with rfl | hp
      · exact hle0
      · exact hall p hp

end NearRouting

namespace NearRouting

theorem fold_max_mem (rt : RoutingTable) (l0 : List Nat) :
    ∀ (xs : List Nat), (∀ p ∈ xs, p ∈ l0) →
      ∀ (acc : Option (Nat × Nat) × Option (Nat × Nat)),
      (∀ mv, acc.2 = some mv → ∃ p ∈ l0, mv = pairOf rt p) →
      ∀ mv, (xs.foldl (routeStep rt) acc).2 = some mv →
        ∃ p ∈ l0, mv = pairOf rt p := by
  intro xs
  induction xs with
  | nil =>
      intro _ acc hacc mv h
      exact hacc mv h
  | cons x xs ih =>
      intro hsub acc hacc mv h
      rw [List.foldl_cons] at h
      refine ih (fun p hp => hsub p (List.mem_cons_of_mem x hp))
        (routeStep rt acc x) ?_ mv h
      intro mv2 h2
      rcases acc with ⟨mn, mx⟩
      unfold routeStep at h2
      dsimp only at h2
      split at h2
      · exact hacc mv2 h2
      · split at h2
        · dsimp only at h2
          injection h2 with h3
          exact ⟨x, hsub x (List.mem_cons_self x xs), h3.symm⟩
        · exact hacc mv2 h2

theorem routeMinMax_max_mem (rt : RoutingTable) (l : List Nat) :
    ∀ mv, (routeMinMax rt l).2 = some mv → ∃ p ∈ l, mv = pairOf rt p := by
  intro mv h
  exact fold_max_mem rt l l (fun p hp => hp) (none, none) (by simp) mv h

end NearRouting

namespace NearRouting

theorem bump_preserves_fm (rt : RoutingTable) (x : Nat) :
    (rt.bump_route_nonce x).peer_forwarding = rt.peer_forwarding := rfl

theorem bump_hopNonce_self (rt : RoutingTable) (x : Nat)
    (hb : hopNonce rt x + 1 < U64) :
    hopNonce (rt.bump_route_nonce x) x = hopNonce rt x + 1 := by
  rcases hf : rt.route_nonce.find x with _ | n
  · have h0 : hopNonce rt x = 0 := by simp [hopNonce, hf]
    simp [hopNonce, RoutingTable.bump_route_nonce, HMap.insert, hf, h0]
  · have h0 : hopNonce rt x = n := by simp [hopNonce, hf]
    rw [h0] at hb
    simp [hopNonce, RoutingTable.bump_route_nonce, HMap.insert, hf, h0,
      Nat.mod_eq_of_lt hb]

theorem bump_hopNonce_other (rt : RoutingTable) (x p : Nat) (hpx : p ≠ x) :
    hopNonce (rt.bump_route_nonce x) p = hopNonce rt p := by
  unfold hopNonce RoutingTable.bump_route_nonce HMap.insert
  dsimp only
  rw [if_neg hpx]

theorem find_route_step (rt : RoutingTable) (target : Nat)
    (hops S : List Nat) (c0 q r : Nat)
    (hfm : rt.peer_forwarding.find target = some hops)
    (hperm : S.Perm hops) (hsort : S.Sorted (· < ·))
    (hr : r < S.length)
    (hcnt : ∀ i : Fin S.length, hopNonce rt (S.get i)
      = c0 + q + (if (i : Nat) < r then 1 else 0))
    (hbound : c0 + q + 1 < U64) :
    (rt.find_route_from_peer_id target).1 = Except.ok (S.get ⟨r, hr⟩) ∧
    (rt.find_route_from_peer_id target).2.peer_forwarding
      = rt.peer_forwarding ∧
    ∀ i : Fin S.length,
      hopNonce (rt.find_route_from_peer_id target).2 (S.get i)
        = c0 + q + (if (i : Nat) < r then 1 else 0)
          + (if (i : Nat) = r then 1 else 0) := by
  have hnodupS : S.Nodup :=
    List.Pairwise.imp (fun h => Nat.ne_of_lt h) hsort
  have hxr_mem : S.get ⟨r, hr⟩ ∈ hops :=
    hperm.subset (List.get_mem S r hr)
  have hxr_nonce : hopNonce rt (S.get ⟨r, hr⟩) = c0 + q := by
    have := hcnt ⟨r, hr⟩
    simpa using this
  have hlevels : ∀ p ∈ hops, hopNonce rt p = c0 + q ∨
      hopNonce rt p = c0 + q + 1 := by
    intro p hp
    have hpS : p ∈ S := hperm.mem_iff.mpr hp
    obtain ⟨i, hi⟩ := List.mem_iff_get.mp hpS
    rw [← hi, hcnt i]
    by_cases hir : (i : Nat) < r
    · rw [if_pos hir]; omega
    · rw [if_neg hir]; omega
  have hstrict : ∀ i : Fin S.length, (i : Nat) ≠ r →
      pairLtB (pairOf rt (S.get ⟨r, hr⟩)) (pairOf rt (S.get i)) = true := by
    intro i hir
    rw [pairLtB_iff]
    have h1 : (pairOf rt (S.get ⟨r, hr⟩)).1 = c0 + q := hxr_nonce
    have h2 : (pairOf rt (S.get i)).1
        = c0 + q + (if (i : Nat) < r then 1 else 0) := hcnt i
    by_cases hlt : (i : Nat) < r
    · left
      rw [h1, h2, if_pos hlt]
      omega
    · right
      refine ⟨?_, ?_⟩
      · rw [h1, h2, if_neg hlt]
        omega
      · have hri : (⟨r, hr⟩ : Fin S.length) < i := by
          rw [Fin.lt_def]
          simp only
          omega
        exact hsort.rel_get_of_lt hri
  have hne : hops ≠ [] := by
    intro h0
    rw [h0] at hperm
    have hl := hperm.length_eq
    simp only [List.length_nil] at hl
    omega
  obtain ⟨m, hm, ⟨p, hp, hmp⟩, hall⟩ := routeMinMax_min_spec rt hops hne
  have hmval : m = pairOf rt (S.get ⟨r, hr⟩) := by
    have hpS : p ∈ S := hperm.mem_iff.mpr hp
    obtain ⟨i, hi⟩ := List.mem_iff_get.mp hpS
    by_cases hir : (i : Nat) = r
    · have hieq : i = ⟨r, hr⟩ := Fin.ext hir
      rw [hieq] at hi
      rw [hmp, hi]
    · exfalso
      have hlt := hstrict i hir
      rw [hi, ← hmp] at hlt
      have hfalse := hall (S.get ⟨r, hr⟩) hxr_mem
      rw [pairLtB_iff] at hlt
      rw [pairLtB_false_iff] at hfalse
      omega
  have hmval2 : m.2 = S.get ⟨r, hr⟩ := by
    rw [hmval]
    rfl
  have hm1 : m.1 = c0 + q := by
    rw [hmval]
    exact hxr_nonce
  have hmaxsmall : ∀ mv, (routeMinMax rt hops).2 = some mv →
      ¬ (m.1 + RRMAX < mv.1) := by
    intro mv hmv
    obtain ⟨pm, hpm, hmvp⟩ := routeMinMax_max_mem rt hops mv hmv
    have hlvl := hlevels pm hpm
    have hmv1 : mv.1 = hopNonce rt pm := by
      rw [hmvp]
      rfl
    rw [hm1, hmv1]
    unfold RRMAX
    rcases hlvl with h | h <;> rw [h] <;> omega
  have hbm : hopNonce rt m.2 + 1 < U64 := by
    rw [hmval2, hxr_nonce]
    exact hbound
  have hgoal2 : ∀ i : Fin S.length,
      hopNonce (rt.bump_route_nonce m.2) (S.get i)
        = c0 + q + (if (i : Nat) < r then 1 else 0)
          + (if (i : Nat) = r then 1 else 0) := by
    intro i
    by_cases hir : (i : Nat) = r
    · have hieq : i = ⟨r, hr⟩ := Fin.ext hir
      rw [hieq, ← hmval2, bump_hopNonce_self rt m.2 hbm, hmval2, hxr_nonce]
      simp
    · have hne2 : S.get i ≠ m.2 := by
        rw [hmval2]
        intro hcon
        have hij := (List.Nodup.get_inj_iff hnodupS).mp hcon
        exact hir (congrArg Fin.val hij)
      rw [bump_hopNonce_other rt m.2 (S.get i) hne2, hcnt i, if_neg hir]
      omega
  unfold RoutingTable.find_route_from_peer_id
  rw [hfm]
  dsimp only
  rcases hmm : routeMinMax rt hops with ⟨mn, mx⟩
  rw [hmm] at hm
  dsimp only at hm
  subst hm
  rcases mx with _ | mv
  · dsimp only
    refine ⟨?_, rfl, hgoal2⟩
    rw [hmval2]
  · have hnc := hmaxsmall mv (by rw [hmm])
    dsimp only
    rw [if_neg hnc]
    refine ⟨?_, rfl, hgoal2⟩
    rw [hmval2]

end NearRouting

namespace NearRouting

theorem succ_div_mod_lt (m k : Nat) (hk : 0 < k) (hc : m % k + 1 < k) :
    (m + 1) / k = m / k ∧ (m + 1) % k = m % k + 1 := by
  have hdm : k * (m / k) + m % k = m := Nat.div_add_mod m k
  have he : m + 1 = (m % k + 1) + k * (m / k) := by omega
  constructor
  · rw [he, Nat.add_mul_div_left _ _ hk, Nat.div_eq_of_lt hc]
    omega
  · rw [he, Nat.add_mul_mod_self_left, Nat.mod_eq_of_lt hc]

theorem succ_div_mod_eq (m k : Nat) (hk : 0 < k) (hc : m % k + 1 = k) :
    (m + 1) / k = m / k + 1 ∧ (m + 1) % k = 0 := by
  have hdm : k * (m / k) + m % k = m := Nat.div_add_mod m k
  have h2 : k * (m / k + 1) = k * (m / k) + k := Nat.mul_succ k (m / k)
  have he : m + 1 = k * (m / k + 1) := by omega
  constructor
  · rw [he, Nat.mul_div_cancel_left _ hk]
  · rw [he, Nat.mul_mod_right]

theorem fair_aux (target : Nat) (hops S : List Nat) (c0 : Nat)
    (hperm : S.Perm hops) (hsort : S.Sorted (· < ·)) (hk : S.length ≠ 0) :
    ∀ (N m : Nat) (rt : RoutingTable),
      rt.peer_forwarding.find target = some hops →
      (∀ i : Fin S.length, hopNonce rt (S.get i)
        = c0 + m / S.length + (if (i : Nat) < m % S.length then 1 else 0)) →
      c0 + m / S.length + N < U64 →
      (iterFindRoute rt target N).1
        = (List.range N).map
            (fun j => Except.ok (S.getD ((m + j) % S.length) 0)) := by
  intro N
  induction N with
  | zero =>
      intro m rt _ _ _
      simp [iterFindRoute]
  | succ n ih =>
      intro m rt hfm hcnt hbound
      have hkpos : 0 < S.length := Nat.pos_of_ne_zero hk
      have hr : m % S.length < S.length := Nat.mod_lt _ hkpos
      obtain ⟨hres, hfm2, hcnt2⟩ := find_route_step rt target hops S c0
        (m / S.length) (m % S.length) hfm hperm hsort hr hcnt (by omega)
      have hdivle : (m + 1) / S.length ≤ m / S.length + 1 := by
        rcases Nat.lt_or_ge (m % S.length + 1) S.length with hc | hc
        · rw [(succ_div_mod_lt m S.length hkpos hc).1]
          omega
        · have hceq : m % S.length + 1 = S.length := by omega
          rw [(succ_div_mod_eq m S.length hkpos hceq).1]
      have hcnt3 : ∀ i : Fin S.length,
          hopNonce (rt.find_route_from_peer_id target).2 (S.get i)
            = c0 + (m + 1) / S.length
              + (if (i : Nat) < (m + 1) % S.length then 1 else 0) := by
        intro i
        rw [hcnt2 i]
        rcases Nat.lt_or_ge (m % S.length + 1) S.length with hc | hc
        · obtain ⟨hd, hm2⟩ := succ_div_mod_lt m S.length hkpos hc
          rw [hd, hm2]
          by_cases hir : (i : Nat) = m % S.length
          · rw [if_pos hir]
            rw [if_neg (by omega), if_pos (by omega)]
          · rw [if_neg hir]
            by_cases hilt : (i : Nat) < m % S.length
            · rw [if_pos hilt, if_pos (by omega)]
            · rw [if_neg hilt, if_neg (by omega)]
        · have hceq : m % S.length + 1 = S.length := by omega
          obtain ⟨hd, hm2⟩ := succ_div_mod_eq m S.length hkpos hceq
          rw [hd, hm2]
          have hibound : (i : Nat) < S.length := i.isLt
          by_cases hir : (i : Nat) = m % S.length
          · rw [if_pos hir]
            rw [if_neg (by omega), if_neg (by omega)]
            omega
          · rw [if_neg hir]
            rw [if_pos (by omega), if_neg (by omega)]
            omega
      have hfm3 : (rt.find_route_from_peer_id target).2.peer_forwarding.find
          target = some hops := by
        rw [hfm2]
        exact hfm
      have hbound3 : c0 + (m + 1) / S.length + n < U64 := by omega
      have hrec := ih (m + 1) (rt.find_route_from_peer_id target).2
        hfm3 hcnt3 hbound3
      show ((rt.find_route_from_peer_id target).1
          :: (iterFindRoute (rt.find_route_from_peer_id target).2 target n).1)
        = _
      rw [hres, hrec]
      rw [List.range_succ_eq_map]
      simp only [List.map_cons, List.map_map]
      congr 1
      · congr 1
        rw [Nat.add_zero]
        rw [List.getD_eq_getElem?_getD]
        rw [List.getElem?_eq_getElem hr]
        simp [List.get_eq_getElem]
      · apply List.map_congr_left
        intro j _
        simp only [Function.comp]
        congr 2
        congr 1
        omega

end NearRouting

namespace NearRouting

theorem count_range_mod (k i : Nat) (hk : 0 < k) (hik : i < k) :
    ∀ N, (List.range N).countP (fun j => j % k == i)
      = N / k + (if i < N % k then 1 else 0) := by
  intro N
  induction N with
  | zero => simp
  | succ n ih =>
      rw [List.range_succ, List.countP_append, ih]
      have hcp : List.countP (fun j => j % k == i) [n]
          = if n % k = i then 1 else 0 := by
        by_cases h : n % k = i <;> simp [List.countP_cons, h]
      rw [hcp]
      rcases Nat.lt_or_ge (n % k + 1) k with hc | hc
      · obtain ⟨hd, hm⟩ := succ_div_mod_lt n k hk hc
        rw [hd, hm]
        by_cases h : n % k = i
        · have h1 : ¬ (i < n % k) := by omega
          have h2 : i < n % k + 1 := by omega
          rw [if_pos h, if_neg h1, if_pos h2]
        · rw [if_neg h]
          by_cases h2 : i < n % k
          · have h3 : i < n % k + 1 := by omega
            rw [if_pos h2, if_pos h3]
          · have h3 : ¬ (i < n % k + 1) := by omega
            rw [if_neg h2, if_neg h3]
      · have hml : n % k < k := Nat.mod_lt _ hk
        have hceq : n % k + 1 = k := by omega
        obtain ⟨hd, hm⟩ := succ_div_mod_eq n k hk hceq
        rw [hd, hm]
        by_cases h : n % k = i
        · have h1 : ¬ (i < n % k) := by omega
          have h2 : ¬ (i < 0) := by omega
          rw [if_pos h, if_neg h1, if_neg h2]
        · have h1 : i < n % k := by omega
          have h2 : ¬ (i < 0) := by omega
          rw [if_neg h, if_pos h1, if_neg h2]

theorem ceil_div_of_pos_mod (N k : Nat) (hk : 0 < k) (hm : 0 < N % k) :
    (N + k - 1) / k = N / k + 1 := by
  have hdm : k * (N / k) + N % k = N := Nat.div_add_mod N k
  have hml : N % k < k := Nat.mod_lt _ hk
  have h2 : k * (N / k + 1) = k * (N / k) + k := Nat.mul_succ k (N / k)
  have he : N + k - 1 = (N % k - 1) + k * (N / k + 1) := by omega
  rw [he, Nat.add_mul_div_left _ _ hk, Nat.div_eq_of_lt (by omega)]
  omega

/-- C9 (amended): for a target whose forwarding set consists of k equal-cost
first hops that all carry the same round-robin counter c0 in the starting
state (as they do in a fresh table), and counters that cannot wrap u64 during
the run, over N successive find_route calls with no graph change each hop is
chosen either the floor or the ceiling of N / k times. -/
theorem round_robin_fairness_equal_start
    (rt : RoutingTable) (target : Nat) (hops : List Nat) (c0 N h : Nat)
    (hfm : rt.peer_forwarding.find target = some hops)
    (hnd : hops.Nodup)
    (heq : ∀ p ∈ hops, hopNonce rt p = c0)
    (hbound : c0 + N < U64)
    (hh : h ∈ hops) :
    (iterFindRoute rt target N).1.countP (isOkFor h) = N / hops.length ∨
    (iterFindRoute rt target N).1.countP (isOkFor h)
      = (N + hops.length - 1) / hops.length := by
  have hkpos : 0 < hops.length := List.length_pos.mpr (by
    intro h0
    rw [h0] at hh
    exact absurd hh (List.not_mem_nil h))
  set S := hops.insertionSort (· ≤ ·) with hS
  have hperm : S.Perm hops := List.perm_insertionSort _ hops
  have hlen : S.length = hops.length := hperm.length_eq
  have hSnd : S.Nodup := (hperm.nodup_iff).mpr hnd
  have hsort : S.Sorted (· < ·) :=
    List.Sorted.lt_of_le (List.sorted_insertionSort _ hops) hSnd
  have hk : S.length ≠ 0 := by omega
  have hcnt0 : ∀ i : Fin S.length, hopNonce rt (S.get i)
      = c0 + 0 / S.length + (if (i : Nat) < 0 % S.length then 1 else 0) := by
    intro i
    have hmem : S.get i ∈ hops := hperm.subset (S.get_mem i i.isLt)
    rw [heq (S.get i) hmem]
    simp [Nat.zero_div, Nat.zero_mod]
  have hres := fair_aux target hops S c0 hperm hsort hk N 0 rt hfm hcnt0
    (by simpa using hbound)
  rw [hres]
  -- index of h in S
  have hhS : h ∈ S := hperm.mem_iff.mpr hh
  obtain ⟨ix, hix⟩ := List.mem_iff_get.mp hhS
  have hbool : ∀ j : Nat,
      isOkFor h (Except.ok (S.getD ((0 + j) % S.length) 0))
        = ((j % S.length : Nat) == (ix : Nat)) := by
    intro j
    have hjlt : j % S.length < S.length :=
      Nat.mod_lt _ (Nat.pos_of_ne_zero hk)
    have hget : S.getD ((0 + j) % S.length) 0 = S.get ⟨j % S.length, hjlt⟩ := by
      rw [Nat.zero_add]
      rw [List.getD_eq_getElem?_getD, List.getElem?_eq_getElem hjlt]
      simp [List.get_eq_getElem]
    rw [hget]
    by_cases hji : j % S.length = (ix : Nat)
    · have hf : (⟨j % S.length, hjlt⟩ : Fin S.length) = ix := Fin.ext hji
      rw [hf, hix]
      show (h == h) = ((j % S.length : Nat) == (ix : Nat))
      simp [hji]
    · have hne2 : S.get ⟨j % S.length, hjlt⟩ ≠ h := by
        rw [← hix]
        intro hcon
        exact hji (congrArg Fin.val ((List.Nodup.get_inj_iff hSnd).mp hcon))
      have hb : (S.get ⟨j % S.length, hjlt⟩ == h) = false :=
        beq_eq_false_iff_ne.mpr hne2
      have hb2 : ((j % S.length : Nat) == (ix : Nat)) = false :=
        beq_eq_false_iff_ne.mpr hji
      show (S.get ⟨j % S.length, hjlt⟩ == h)
        = ((j % S.length : Nat) == (ix : Nat))
      rw [hb, hb2]
  rw [List.countP_map]
  have hfun : (isOkFor h ∘ fun j => Except.ok (S.getD ((0 + j) % S.length) 0))
      = fun j => (j % S.length : Nat) == (ix : Nat) := by
    funext j
    exact hbool j
  rw [hfun]
  rw [count_range_mod S.length (ix : Nat) (Nat.pos_of_ne_zero hk) ix.isLt N]
  by_cases hc : (ix : Nat) < N % S.length
  · right
    rw [if_pos hc, hlen]
    rw [ceil_div_of_pos_mod N hops.length hkpos (by rw [← hlen]; omega)]
  · left
    rw [if_neg hc, hlen]
    omega

end NearRouting

namespace NearRouting

/-- Fresh-counter routing table with forwarding set for target 3 over hops 2
and 1. -/
def rtFair : RoutingTable :=
  { RoutingTable.new 9 with
      peer_forwarding := HMap.empty.insert 3 [2, 1] }

/-- Witness for the amended C9 theorem: three calls over two equal hops pick
hop 1 either one or two times. -/
theorem round_robin_fairness_equal_start_witness :
    (iterFindRoute rtFair 3 3).1.countP (isOkFor 1)
      = 3 / ([2, 1] : List Nat).length ∨
    (iterFindRoute rtFair 3 3).1.countP (isOkFor 1)
      = (3 + ([2, 1] : List Nat).length - 1) / ([2, 1] : List Nat).length :=
  round_robin_fairness_equal_start rtFair 3 [2, 1] 0 3 1 rfl (by decide)
    (fun p _ => rfl) (by decide) (by decide)

end NearRouting

namespace NearRouting

/-- Walks of a given length between two vertices of the adjacency view
(spec-side notion of path used to state claim C4). -/
def Reach (g : Graph) : Nat → Nat → Nat → Prop
  | 0, u, v => u = v
  | k + 1, u, v => ∃ w, Reach g k u w ∧ v ∈ g.adjOf w

/-- Spec-side reachability. -/
def Reachable (g : Graph) (u v : Nat) : Prop :=
  ∃ k, Reach g k u v

/-- Spec-side graph distance: d is the length of a shortest walk. -/
def IsDist (g : Graph) (u v d : Nat) : Prop :=
  Reach g d u v ∧ ∀ e, e < d → ¬ Reach g e u v

/-- Spec-side first-hop set of claim C4, phrased as the claim does: n is a
direct neighbor of the source with dist(source, n) = 1 and
dist(n, t) = dist(source, t) - 1. -/
def FirstHop (g : Graph) (t n : Nat) : Prop :=
  n ∈ g.adjOf g.source ∧ IsDist g g.source n 1 ∧
  ∃ dt, IsDist g g.source t dt ∧ IsDist g n t (dt - 1)

theorem reach_concat (g : Graph) (a : Nat) :
    ∀ b u v w, Reach g a u v → Reach g b v w → Reach g (a + b) u w := by
  intro b
  induction b with
  | zero =>
      intro u v w h1 h2
      rw [show Reach g 0 v w = (v = w) from rfl] at h2
      subst h2
      exact h1
  | succ m ih =>
      intro u v w h1 h2
      obtain ⟨z, hz1, hz2⟩ := h2
      exact ⟨z, ih u v z h1 hz1, hz2⟩

theorem reach_front (g : Graph) :
    ∀ k u v, Reach g (k + 1) u v → ∃ w, w ∈ g.adjOf u ∧ Reach g k w v := by
  intro k
  induction k with
  | zero =>
      intro u v h
      obtain ⟨w, hw1, hw2⟩ := h
      rw [show Reach g 0 u w = (u = w) from rfl] at hw1
      subst hw1
      exact ⟨v, hw2, rfl⟩
  | succ m ih =>
      intro u v h
      obtain ⟨w, hw1, hw2⟩ := h
      obtain ⟨z, hz1, hz2⟩ := ih u w hw1
      exact ⟨z, hz1, ⟨w, hz2, hw2⟩⟩

theorem isDist_unique (g : Graph) (u v d d2 : Nat)
    (h1 : IsDist g u v d) (h2 : IsDist g u v d2) : d = d2 := by
  rcases Nat.lt_trichotomy d d2 with h | h | h
  · exact absurd h1.1 (h2.2 d h)
  · exact h
  · exact absurd h2.1 (h1.2 d2 h)

theorem exists_isDist (g : Graph) (u v : Nat) (h : Reachable g u v) :
    ∃ d, IsDist g u v d ∧ ∀ k, Reach g k u v → d ≤ k := by
  classical
  obtain ⟨k, hk⟩ := h
  have hex : ∃ d, Reach g d u v := ⟨k, hk⟩
  have hfind := Nat.find_spec hex
  refine ⟨Nat.find hex, ⟨hfind, ?_⟩, ?_⟩
  · intro e he hre
    exact Nat.find_min hex he hre
  · intro e hre
    exact (Nat.find_min' hex hre)

theorem isDist_zero (g : Graph) (u : Nat) : IsDist g u u 0 :=
  ⟨rfl, fun e he => absurd he (Nat.not_lt_zero e)⟩

theorem isDist_zero_iff (g : Graph) (u v : Nat) :
    IsDist g u v 0 ↔ u = v := by
  constructor
  · intro h
    exact h.1
  · intro h
    subst h
    exact isDist_zero g u

theorem reach_one_iff (g : Graph) (u v : Nat) :
    Reach g 1 u v ↔ v ∈ g.adjOf u := by
  constructor
  · intro h
    obtain ⟨w, hw1, hw2⟩ := h
    rw [show Reach g 0 u w = (u = w) from rfl] at hw1
    subst hw1
    exact hw2
  · intro h
    exact ⟨u, rfl, h⟩

theorem isDist_one (g : Graph) (s v : Nat) (hv : v ∈ g.adjOf s)
    (hne : v ≠ s) : IsDist g s v 1 := by
  refine ⟨(reach_one_iff g s v).mpr hv, ?_⟩
  intro e he
  interval_cases e
  intro h0
  exact hne h0.symm

end NearRouting

namespace NearRouting

theorem isDist_pred (g : Graph) (s v e : Nat) (h : IsDist g s v (e + 1)) :
    ∃ u, IsDist g s u e ∧ v ∈ g.adjOf u := by
  obtain ⟨u, hu1, hu2⟩ := h.1
  obtain ⟨d, hd, hdle⟩ := exists_isDist g s u ⟨e, hu1⟩
  have hde : d ≤ e := hdle e hu1
  have hdeq : d = e := by
    by_contra hne
    have hlt : d < e := by omega
    have hrv : Reach g (d + 1) s v := ⟨u, hd.1, hu2⟩
    exact h.2 (d + 1) (by omega) hrv
  subst hdeq
  exact ⟨u, hd, hu2⟩

theorem firstHop_base (g : Graph) (w n : Nat)
    (hd : IsDist g g.source w 1) : FirstHop g w n ↔ n = w := by
  constructor
  · rintro ⟨hn1, hn2, dt, hdt, hnt⟩
    have hdt1 : dt = 1 := isDist_unique g _ w dt 1 hdt hd
    subst hdt1
    exact hnt.1
  · intro h
    subst h
    have hw : n ∈ g.adjOf g.source := (reach_one_iff g _ n).mp hd.1
    exact ⟨hw, hd, 1, hd, isDist_zero g n⟩

theorem firstHop_step (g : Graph) (w n d : Nat) (hd1 : 1 ≤ d)
    (hdw : IsDist g g.source w (d + 1)) :
    FirstHop g w n ↔
      ∃ u, IsDist g g.source u d ∧ w ∈ g.adjOf u ∧ FirstHop g u n := by
  obtain ⟨e, rfl⟩ : ∃ e, d = e + 1 := ⟨d - 1, by omega⟩
  constructor
  · rintro ⟨hn1, hn2, dt, hdt, hnt⟩
    have hdteq : dt = e + 1 + 1 := isDist_unique g _ w dt _ hdt hdw
    subst hdteq
    have hnt2 : IsDist g n w (e + 1) := by
      have h11 : e + 1 + 1 - 1 = e + 1 := rfl
      rw [h11] at hnt
      exact hnt
    obtain ⟨u, hu, hadj⟩ := isDist_pred g n w e hnt2
    have hsn : Reach g 1 g.source n := (reach_one_iff g _ n).mpr hn1
    have hsu : IsDist g g.source u (e + 1) := by
      constructor
      · have := reach_concat g 1 e g.source n u hsn hu.1
        simpa [Nat.add_comm] using this
      · intro f hf hre
        have hrw : Reach g (f + 1) g.source w := ⟨u, hre, hadj⟩
        exact hdw.2 (f + 1) (by omega) hrw
    refine ⟨u, hsu, hadj, hn1, hn2, e + 1, hsu, ?_⟩
    have h11 : e + 1 - 1 = e := rfl
    rw [h11]
    exact hu
  · rintro ⟨u, hsu, hadj, hn1, hn2, du, hdu, hnu⟩
    have hdueq : du = e + 1 := isDist_unique g _ u du _ hdu hsu
    subst hdueq
    have hnu2 : IsDist g n u e := by
      have h11 : e + 1 - 1 = e := rfl
      rw [h11] at hnu
      exact hnu
    refine ⟨hn1, hn2, e + 1 + 1, hdw, ?_⟩
    have h11 : e + 1 + 1 - 1 = e + 1 := rfl
    rw [h11]
    constructor
    · exact ⟨u, hnu2.1, hadj⟩
    · intro f hf hre
      have hsn : Reach g 1 g.source n := (reach_one_iff g _ n).mpr hn1
      have hrw := reach_concat g 1 f g.source n w hsn hre
      exact hdw.2 (1 + f) (by omega) hrw

theorem firstHop_nonempty (g : Graph) :
    ∀ dt t, 1 ≤ dt → IsDist g g.source t dt → ∃ n, FirstHop g t n := by
  intro dt
  induction dt with
  | zero => intro t h; omega
  | succ d ih =>
      intro t _ hdt
      rcases Nat.eq_zero_or_pos d with hd0 | hdpos
      · subst hd0
        have ht : t ∈ g.adjOf g.source := (reach_one_iff g _ t).mp hdt.1
        exact ⟨t, ht, hdt, 1, hdt, isDist_zero g t⟩
      · obtain ⟨u, hu, hadj⟩ := isDist_pred g g.source t d hdt
        obtain ⟨n, hn⟩ := ih u hdpos hu
        exact ⟨n, (firstHop_step g t n d hdpos hdt).mpr ⟨u, hu, hadj, hn⟩⟩

end NearRouting

namespace NearRouting

theorem mem_insertAll (n : Nat) :
    ∀ (adding target : List Nat),
      n ∈ insertAll adding target ↔ n ∈ adding ∨ n ∈ target := by
  intro adding
  induction adding with
  | nil => intro target; simp [insertAll]
  | cons a rest ih =>
      intro target
      have hstep : insertAll (a :: rest) target
          = insertAll rest (target.insert a) := rfl
      rw [hstep, ih (target.insert a)]
      simp [List.mem_insert_iff]
      tauto

end NearRouting

namespace NearRouting

theorem bfsStep_d_other (cur cd : Nat)
    (st : List Nat × HMap Nat Nat × HMap Nat (List Nat)) (x w : Nat)
    (hwx : w ≠ x) : (bfsStep cur cd st x).2.1.find w = st.2.1.find w := by
  rcases st with ⟨q, d, r⟩
  by_cases hn : d.find x = none
  · simp [bfsStep, hn, HMap.insert, hwx]
  · by_cases he : d.find x = some (cd + 1)
    · simp [bfsStep, hn, he, HMap.insert, hwx, Option.isNone_iff_eq_none]
    · simp [bfsStep, hn, he, HMap.insert, hwx, Option.isNone_iff_eq_none]

theorem bfsStep_r_other (cur cd : Nat)
    (st : List Nat × HMap Nat Nat × HMap Nat (List Nat)) (x w : Nat)
    (hwx : w ≠ x) : (bfsStep cur cd st x).2.2.find w = st.2.2.find w := by
  rcases st with ⟨q, d, r⟩
  by_cases hn : d.find x = none
  · simp [bfsStep, hn, HMap.insert, hwx]
  · by_cases he : d.find x = some (cd + 1)
    · simp [bfsStep, hn, he, HMap.insert, hwx, Option.isNone_iff_eq_none]
    · simp [bfsStep, hn, he, HMap.insert, hwx, Option.isNone_iff_eq_none]

theorem bfsStep_queue (cur cd : Nat)
    (st : List Nat × HMap Nat Nat × HMap Nat (List Nat)) (x : Nat) :
    (bfsStep cur cd st x).1 =
      if st.2.1.find x = none then st.1 ++ [x] else st.1 := by
  rcases st with ⟨q, d, r⟩
  by_cases hn : d.find x = none
  · simp [bfsStep, hn, HMap.insert]
  · by_cases he : d.find x = some (cd + 1)
    · simp [bfsStep, hn, he, HMap.insert, Option.isNone_iff_eq_none]
    · simp [bfsStep, hn, he, HMap.insert, Option.isNone_iff_eq_none]

theorem bfsStep_d_at (cur cd : Nat)
    (st : List Nat × HMap Nat Nat × HMap Nat (List Nat)) (x : Nat) :
    (bfsStep cur cd st x).2.1.find x =
      if st.2.1.find x = none then some (cd + 1) else st.2.1.find x := by
  rcases st with ⟨q, d, r⟩
  by_cases hn : d.find x = none
  · simp [bfsStep, hn, HMap.insert]
  · by_cases he : d.find x = some (cd + 1)
    · simp [bfsStep, hn, he, HMap.insert, Option.isNone_iff_eq_none]
    · simp [bfsStep, hn, he, HMap.insert, Option.isNone_iff_eq_none]

theorem bfsStep_r_at (cur cd : Nat)
    (st : List Nat × HMap Nat Nat × HMap Nat (List Nat)) (x : Nat)
    (hcx : cur ≠ x) :
    (bfsStep cur cd st x).2.2.find x =
      if st.2.1.find x = none then
        some (insertAll ((st.2.2.find cur).getD []) [])
      else if st.2.1.find x = some (cd + 1) then
        some (insertAll ((st.2.2.find cur).getD []) ((st.2.2.find x).getD []))
      else st.2.2.find x := by
  rcases st with ⟨q, d, r⟩
  have hcx2 : ¬ (cur = x) := hcx
  by_cases hn : d.find x = none
  · simp [bfsStep, hn, HMap.insert, hcx2]
  · by_cases he : d.find x = some (cd + 1)
    · simp [bfsStep, hn, he, HMap.insert, hcx2, Option.isNone_iff_eq_none]
    · simp [bfsStep, hn, he, HMap.insert, hcx2, Option.isNone_iff_eq_none]

end NearRouting

namespace NearRouting

theorem bfsVisit_desc (cur cd : Nat) :
    ∀ (ns : List Nat), ns.Nodup → cur ∉ ns →
      ∀ (q0 : List Nat) (d0 : HMap Nat Nat) (r0 : HMap Nat (List Nat)),
      (ns.foldl (bfsStep cur cd) (q0, d0, r0)).1
          = q0 ++ ns.filter (fun w => (d0.find w).isNone) ∧
      (∀ w, w ∉ ns →
        (ns.foldl (bfsStep cur cd) (q0, d0, r0)).2.1.find w = d0.find w ∧
        (ns.foldl (bfsStep cur cd) (q0, d0, r0)).2.2.find w = r0.find w) ∧
      (∀ w ∈ ns,
        (ns.foldl (bfsStep cur cd) (q0, d0, r0)).2.1.find w
            = (if d0.find w = none then some (cd + 1) else d0.find w) ∧
        (ns.foldl (bfsStep cur cd) (q0, d0, r0)).2.2.find w
            = (if d0.find w = none then
                 some (insertAll ((r0.find cur).getD []) [])
               else if d0.find w = some (cd + 1) then
                 some (insertAll ((r0.find cur).getD []) ((r0.find w).getD []))
               else r0.find w)) := by
  intro ns
  induction ns with
  | nil =>
      intro _ _ q0 d0 r0
      refine ⟨by simp, fun w _ => ⟨rfl, rfl⟩, fun w hw => absurd hw (by simp)⟩
  | cons x rest ih =>
      intro hnd hcur q0 d0 r0
      have hxrest : x ∉ rest := (List.nodup_cons.mp hnd).1
      have hndr : rest.Nodup := (List.nodup_cons.mp hnd).2
      have hcx : cur ≠ x := fun h => hcur (h ▸ List.mem_cons_self x rest)
      have hcr : cur ∉ rest := fun h => hcur (List.mem_cons_of_mem x h)
      have hfold : (x :: rest).foldl (bfsStep cur cd) (q0, d0, r0)
          = rest.foldl (bfsStep cur cd)
              ((bfsStep cur cd (q0, d0, r0) x).1,
               (bfsStep cur cd (q0, d0, r0) x).2.1,
               (bfsStep cur cd (q0, d0, r0) x).2.2) := by
        rw [List.foldl_cons]
      obtain ⟨ihq, iho, iha⟩ := ih hndr hcr
        (bfsStep cur cd (q0, d0, r0) x).1
        (bfsStep cur cd (q0, d0, r0) x).2.1
        (bfsStep cur cd (q0, d0, r0) x).2.2
      refine ⟨?_, ?_, ?_⟩
      · rw [hfold, ihq, bfsStep_queue]
        have hfc : rest.filter
            (fun w => ((bfsStep cur cd (q0, d0, r0) x).2.1.find w).isNone)
            = rest.filter (fun w => (d0.find w).isNone) := by
          apply List.filter_congr
          intro w hw
          rw [bfsStep_d_other cur cd (q0, d0, r0) x w
            (fun h => hxrest (h ▸ hw))]
        rw [hfc, List.filter_cons]
        by_cases hn : d0.find x = none
        · rw [if_pos hn]
          simp [hn]
        · rw [if_neg hn]
          simp [Option.isNone_iff_eq_none, hn]
      · intro w hw
        have hwx : w ≠ x := fun h => hw (h ▸ List.mem_cons_self x rest)
        have hwr : w ∉ rest := fun h => hw (List.mem_cons_of_mem x h)
        obtain ⟨iho1, iho2⟩ := iho w hwr
        rw [hfold]
        exact ⟨by rw [iho1, bfsStep_d_other cur cd (q0, d0, r0) x w hwx],
          by rw [iho2, bfsStep_r_other cur cd (q0, d0, r0) x w hwx]⟩
      · intro w hw
        rcases List.mem_cons.mp hw with rfl | hwr
        · obtain ⟨iho1, iho2⟩ := iho w hxrest
          rw [hfold]
          constructor
          · rw [iho1, bfsStep_d_at]
          · rw [iho2, bfsStep_r_at cur cd (q0, d0, r0) w hcx]
        · have hwx : w ≠ x := fun h => hxrest (h ▸ hwr)
          obtain ⟨iha1, iha2⟩ := iha w hwr
          have hd : (bfsStep cur cd (q0, d0, r0) x).2.1.find w = d0.find w :=
            bfsStep_d_other cur cd (q0, d0, r0) x w hwx
          have hrw : (bfsStep cur cd (q0, d0, r0) x).2.2.find w = r0.find w :=
            bfsStep_r_other cur cd (q0, d0, r0) x w hwx
          have hrc : (bfsStep cur cd (q0, d0, r0) x).2.2.find cur
              = r0.find cur :=
            bfsStep_r_other cur cd (q0, d0, r0) x cur hcx
          rw [hfold]
          rw [hd] at iha1 iha2
          rw [hrw, hrc] at iha2
          exact ⟨iha1, iha2⟩

end NearRouting

namespace NearRouting

theorem seedFold_desc :
    ∀ (ns q0 : List Nat) (d0 : HMap Nat Nat) (r0 : HMap Nat (List Nat)),
      (ns.foldl (fun st neighbor =>
          (st.1 ++ [neighbor], st.2.1.insert neighbor 1,
           st.2.2.insert neighbor [neighbor])) (q0, d0, r0)).1 = q0 ++ ns ∧
      (∀ w, w ∉ ns →
        (ns.foldl (fun st neighbor =>
            (st.1 ++ [neighbor], st.2.1.insert neighbor 1,
             st.2.2.insert neighbor [neighbor])) (q0, d0, r0)).2.1.find w
          = d0.find w ∧
        (ns.foldl (fun st neighbor =>
            (st.1 ++ [neighbor], st.2.1.insert neighbor 1,
             st.2.2.insert neighbor [neighbor])) (q0, d0, r0)).2.2.find w
          = r0.find w) ∧
      (∀ w ∈ ns,
        (ns.foldl (fun st neighbor =>
            (st.1 ++ [neighbor], st.2.1.insert neighbor 1,
             st.2.2.insert neighbor [neighbor])) (q0, d0, r0)).2.1.find w
          = some 1 ∧
        (ns.foldl (fun st neighbor =>
            (st.1 ++ [neighbor], st.2.1.insert neighbor 1,
             st.2.2.insert neighbor [neighbor])) (q0, d0, r0)).2.2.find w
          = some [w]) := by
  intro ns
  induction ns with
  | nil =>
      intro q0 d0 r0
      exact ⟨by simp, fun w _ => ⟨rfl, rfl⟩, fun w hw => absurd hw (by simp)⟩
  | cons x rest ih =>
      intro q0 d0 r0
      obtain ⟨ihq, iho, iha⟩ := ih (q0 ++ [x]) (d0.insert x 1) (r0.insert x [x])
      refine ⟨?_, ?_, ?_⟩
      · rw [List.foldl_cons, ihq]
        simp
      · intro w hw
        have hwx : w ≠ x := fun h => hw (h ▸ List.mem_cons_self x rest)
        have hwr : w ∉ rest := fun h => hw (List.mem_cons_of_mem x h)
        obtain ⟨h1, h2⟩ := iho w hwr
        rw [List.foldl_cons]
        refine ⟨?_, ?_⟩
        · rw [h1]
          simp [HMap.insert, hwx]
        · rw [h2]
          simp [HMap.insert, hwx]
      · intro w hw
        rcases List.mem_cons.mp hw with rfl | hwr
        · by_cases hwr2 : w ∈ rest
          · obtain ⟨h1, h2⟩ := iha w hwr2
            rw [List.foldl_cons]
            exact ⟨h1, h2⟩
          · obtain ⟨h1, h2⟩ := iho w hwr2
            rw [List.foldl_cons]
            refine ⟨?_, ?_⟩
            · rw [h1]
              simp [HMap.insert]
            · rw [h2]
              simp [HMap.insert]
        · obtain ⟨h1, h2⟩ := iha w hwr
          rw [List.foldl_cons]
          exact ⟨h1, h2⟩

/-- Well-formedness of a graph as built by the HashMap-and-HashSet model:
the lookup function is supported inside the key list, adjacency sets are
duplicate-free, and the claim's hypotheses hold (symmetric adjacency, no
self-loops). -/
structure GraphOK (g : Graph) : Prop where
  coherent : ∀ v l, g.adjacency.find v = some l → v ∈ g.adjacency.keys
  sym : ∀ u v, v ∈ g.adjOf u → u ∈ g.adjOf v
  adj_nodup : ∀ u, (g.adjOf u).Nodup
  no_loop : ∀ u, u ∉ g.adjOf u

/-- Distance value the loop reads for a discovered vertex. -/
def Dval (D : Nat → Option Nat) (v : Nat) : Nat :=
  (D v).getD 0

/-- Invariant of the BFS loop of calculate_distance.  P is the (ghost) set
of dequeued vertices, Q the pending queue, D and R the lookup functions of
the distance and routes maps. -/
structure BfsInv (g : Graph) (P : Finset Nat) (Q : List Nat)
    (D : Nat → Option Nat) (R : Nat → Option (List Nat)) : Prop where
  src_dist : D g.source = some 0
  src_notin_P : g.source ∉ P
  src_notin_Q : g.source ∉ Q
  dom : ∀ v, (D v).isSome ↔ (v = g.source ∨ v ∈ P ∨ v ∈ Q)
  q_nodup : Q.Nodup
  q_disj : ∀ v ∈ Q, v ∉ P
  closed : ∀ u, (u ∈ P ∨ u = g.source) → ∀ w ∈ g.adjOf u, (D w).isSome
  dist_correct : ∀ v k, D v = some k → IsDist g g.source v k
  q_sorted : Q.Pairwise (fun a b => Dval D a ≤ Dval D b)
  q_band : ∀ a b, Q.head? = some a → b ∈ Q → Dval D b ≤ Dval D a + 1
  pq_le : ∀ u ∈ P, ∀ v ∈ Q, Dval D u ≤ Dval D v
  complete : ∀ v k, IsDist g g.source v k → (∀ b ∈ Q, k < Dval D b) →
    (v ∈ P ∨ v = g.source)
  r_dom : ∀ w, (R w).isSome ↔ ((D w).isSome ∧ w ≠ g.source)
  r_done : ∀ u ∈ P, ∀ n, n ∈ (R u).getD [] ↔ FirstHop g u n
  r_pend : ∀ w ∈ Q, ∀ n, n ∈ (R w).getD [] ↔
    ((D w = some 1 ∧ n = w) ∨
     ∃ u ∈ P, w ∈ g.adjOf u ∧ D w = some (Dval D u + 1) ∧ FirstHop g u n)

end NearRouting

namespace NearRouting

theorem undiscovered_deep (g : Graph) (P : Finset Nat) (Q : List Nat)
    (D : Nat → Option Nat) (R : Nat → Option (List Nat))
    (hinv : BfsInv g P Q D R) (dmin : Nat)
    (hmin : ∀ b ∈ Q, dmin ≤ Dval D b) (v : Nat) (hv : D v = none) :
    ∀ e, e ≤ dmin → ¬ Reach g e g.source v := by
  have aux : ∀ d, d ≤ dmin → ∀ x, IsDist g g.source x d → (D x).isSome := by
    intro d hd x hx
    rcases Nat.eq_zero_or_pos d with h0 | hpos
    · subst h0
      have hxs : g.source = x := hx.1
      rw [← hxs, hinv.src_dist]
      rfl
    · obtain ⟨e, rfl⟩ : ∃ e, d = e + 1 := ⟨d - 1, by omega⟩
      obtain ⟨u, hu, hadj⟩ := isDist_pred g g.source x e hx
      have hup : u ∈ P ∨ u = g.source := by
        apply hinv.complete u e hu
        intro b hb
        have := hmin b hb
        omega
      exact hinv.closed u (by tauto) x hadj
  intro e he hre
  obtain ⟨d, hd, hdle⟩ := exists_isDist g g.source v ⟨e, hre⟩
  have hdv := aux d (by have := hdle e hre; omega) v hd
  rw [hv] at hdv
  exact absurd hdv (by simp)

theorem pend_head_final (g : Graph) (P : Finset Nat)
    (cur : Nat) (rest : List Nat) (D : Nat → Option Nat)
    (R : Nat → Option (List Nat))
    (hinv : BfsInv g P (cur :: rest) D R) (cd : Nat)
    (hdc : D cur = some cd) :
    ∀ n, n ∈ (R cur).getD [] ↔ FirstHop g cur n := by
  have hcurQ : cur ∈ cur :: rest := List.mem_cons_self cur rest
  have hcs : cur ≠ g.source := fun h => hinv.src_notin_Q (h ▸ hcurQ)
  have hIc : IsDist g g.source cur cd := hinv.dist_correct cur cd hdc
  have hcd1 : 1 ≤ cd := by
    rcases Nat.eq_zero_or_pos cd with h0 | h
    · subst h0
      exact absurd hIc.1.symm hcs
    · exact h
  have hQge : ∀ b ∈ cur :: rest, cd ≤ Dval D b := by
    intro b hb
    rcases List.mem_cons.mp hb with rfl | hb2
    · simp [Dval, hdc]
    · have := (List.pairwise_cons.mp hinv.q_sorted).1 b hb2
      simpa [Dval, hdc] using this
  have hpend := hinv.r_pend cur hcurQ
  intro n
  rw [hpend n]
  rcases Nat.eq_or_lt_of_le hcd1 with hcd_eq | hcd_gt
  · -- cd = 1
    have hb := firstHop_base g cur n (by rw [hcd_eq]; exact hIc)
    rw [hb]
    constructor
    · rintro (⟨_, hn⟩ | ⟨u, hu, _, hDcur, _⟩)
      · exact hn
      · exfalso
        obtain ⟨du, hdu⟩ : ∃ du, D u = some du := by
          have := (hinv.dom u).mpr (Or.inr (Or.inl hu))
          exact Option.isSome_iff_exists.mp this
        have hval : Dval D u = du := by simp [Dval, hdu]
        rw [hdc] at hDcur
        have : du = 0 := by
          rw [hval] at hDcur
          have := Option.some_inj.mp hDcur
          omega
        subst this
        have := hinv.dist_correct u 0 hdu
        have hus : g.source = u := this.1
        exact hinv.src_notin_P (hus ▸ hu)
    · intro hn
      left
      exact ⟨by rw [hdc, hcd_eq], hn⟩
  · -- cd ≥ 2
    obtain ⟨d, rfl⟩ : ∃ d, cd = d + 1 := ⟨cd - 1, by omega⟩
    have hd1 : 1 ≤ d := by omega
    have hstep := firstHop_step g cur n d hd1 hIc
    rw [hstep]
    constructor
    · rintro (⟨h1, _⟩ | ⟨u, hu, hadj, hDcur, hfh⟩)
      · rw [hdc] at h1
        have := Option.some_inj.mp h1
        omega
      · obtain ⟨du, hdu⟩ : ∃ du, D u = some du :=
          Option.isSome_iff_exists.mp ((hinv.dom u).mpr (Or.inr (Or.inl hu)))
        have hval : Dval D u = du := by simp [Dval, hdu]
        rw [hdc, hval] at hDcur
        have hdud : du = d := by
          have := Option.some_inj.mp hDcur
          omega
        subst hdud
        exact ⟨u, hinv.dist_correct u du hdu, hadj, hfh⟩
    · rintro ⟨u, hu, hadj, hfh⟩
      right
      have hus : u ≠ g.source := by
        intro h
        subst h
        have := isDist_unique g g.source g.source d 0 hu
          (isDist_zero g g.source)
        omega
      have hup : u ∈ P := by
        rcases hinv.complete u d hu (fun b hb => by
          have := hQge b hb
          omega) with h | h
        · exact h
        · exact absurd h hus
      obtain ⟨du, hdu⟩ : ∃ du, D u = some du :=
        Option.isSome_iff_exists.mp ((hinv.dom u).mpr (Or.inr (Or.inl hup)))
      have hdud : du = d :=
        isDist_unique g g.source u du d (hinv.dist_correct u du hdu) hu
      subst hdud
      refine ⟨u, hup, hadj, ?_, hfh⟩
      rw [hdc]
      simp [Dval, hdu]

end NearRouting

namespace NearRouting

theorem bfs_preserve (g : Graph) (hg : GraphOK g) (P : Finset Nat)
    (cur : Nat) (rest : List Nat) (dist : HMap Nat Nat)
    (routes : HMap Nat (List Nat))
    (hinv : BfsInv g P (cur :: rest) dist.find routes.find)
    (cd : Nat) (hdc : dist.find cur = some cd) :
    BfsInv g (insert cur P)
      ((g.adjOf cur).foldl (bfsStep cur cd) (rest, dist, routes)).1
      ((g.adjOf cur).foldl (bfsStep cur cd) (rest, dist, routes)).2.1.find
      ((g.adjOf cur).foldl (bfsStep cur cd) (rest, dist, routes)).2.2.find ∧
    ((g.adjOf cur).foldl (bfsStep cur cd) (rest, dist, routes)).1
      = rest ++ (g.adjOf cur).filter (fun w => (dist.find w).isNone) ∧
    (∀ w, ((g.adjOf cur).foldl (bfsStep cur cd)
        (rest, dist, routes)).2.1.find w = none
      ↔ (dist.find w = none ∧ w ∉ g.adjOf cur)) := by
  have hnd_ns : (g.adjOf cur).Nodup := hg.adj_nodup cur
  have hcur_ns : cur ∉ g.adjOf cur := hg.no_loop cur
  obtain ⟨hq', hother, hat⟩ :=
    bfsVisit_desc cur cd (g.adjOf cur) hnd_ns hcur_ns rest dist routes
  set ns := g.adjOf cur with hns
  set st := ns.foldl (bfsStep cur cd) (rest, dist, routes) with hst
  set D := dist.find with hDdef
  set R := routes.find with hRdef
  set D2 := st.2.1.find with hD2def
  set R2 := st.2.2.find with hR2def
  set newly := ns.filter (fun w => (D w).isNone) with hnewly
  have hmem_newly : ∀ w, w ∈ newly ↔ (w ∈ ns ∧ D w = none) := by
    intro w
    simp [hnewly, List.mem_filter, Option.isNone_iff_eq_none]
  have hcurQ : cur ∈ cur :: rest := List.mem_cons_self cur rest
  have hcs : cur ≠ g.source := fun h => hinv.src_notin_Q (h ▸ hcurQ)
  have hIc : IsDist g g.source cur cd := hinv.dist_correct cur cd hdc
  have hcd1 : 1 ≤ cd := by
    rcases Nat.eq_zero_or_pos cd with h0 | h
    · subst h0
      exact absurd hIc.1.symm hcs
    · exact h
  have hcurrest : cur ∉ rest := (List.nodup_cons.mp hinv.q_nodup).1
  have hQge : ∀ b ∈ cur :: rest, cd ≤ Dval D b := by
    intro b hb
    rcases List.mem_cons.mp hb with rfl | hb2
    · simp [Dval, hdc]
    · have := (List.pairwise_cons.mp hinv.q_sorted).1 b hb2
      simpa [Dval, hdc] using this
  have hD2 : ∀ w, D2 w =
      if w ∈ ns then (if D w = none then some (cd + 1) else D w)
      else D w := by
    intro w
    by_cases h : w ∈ ns
    · rw [if_pos h]
      exact (hat w h).1
    · rw [if_neg h]
      exact (hother w h).1
  have hR2 : ∀ w, R2 w =
      if w ∈ ns then
        (if D w = none then some (insertAll ((R cur).getD []) [])
         else if D w = some (cd + 1) then
           some (insertAll ((R cur).getD []) ((R w).getD []))
         else R w)
      else R w := by
    intro w
    by_cases h : w ∈ ns
    · rw [if_pos h]
      exact (hat w h).2
    · rw [if_neg h]
      exact (hother w h).2
  have hD2_keep : ∀ w, (D w).isSome → D2 w = D w := by
    intro w hw
    have hno : D w ≠ none := Option.isSome_iff_ne_none.mp hw
    rw [hD2 w]
    by_cases h : w ∈ ns
    · rw [if_pos h, if_neg hno]
    · rw [if_neg h]
  have hD2_none_iff : ∀ w, D2 w = none ↔ (D w = none ∧ w ∉ ns) := by
    intro w
    rw [hD2 w]
    by_cases h : w ∈ ns
    · rw [if_pos h]
      by_cases hn : D w = none
      · rw [if_pos hn]
        simp [h]
      · rw [if_neg hn]
        simp [h, hn]
    · rw [if_neg h]
      simp [h]
  have hD2_some : ∀ w, (D w).isSome → (D2 w).isSome := by
    intro w hw
    rw [hD2_keep w hw]
    exact hw
  have hDval2_keep : ∀ w, (D w).isSome → Dval D2 w = Dval D w := by
    intro w hw
    unfold Dval
    rw [hD2_keep w hw]
  have hDcur_some : (D cur).isSome := by simp [hdc]
  have hD2cur : D2 cur = some cd := by
    rw [hD2_keep cur hDcur_some, hdc]
  have hDval2cur : Dval D2 cur = cd := by simp [Dval, hD2cur]
  have hnewly_D2 : ∀ w ∈ newly, D2 w = some (cd + 1) := by
    intro w hw
    obtain ⟨hwns, hwn⟩ := (hmem_newly w).mp hw
    rw [hD2 w, if_pos hwns, if_pos hwn]
  have hnewly_fresh : ∀ w ∈ newly,
      w ≠ g.source ∧ w ∉ P ∧ w ∉ cur :: rest := by
    intro w hw
    obtain ⟨hwns, hwn⟩ := (hmem_newly w).mp hw
    have hnot : ¬ (w = g.source ∨ w ∈ P ∨ w ∈ cur :: rest) := by
      intro h
      have := (hinv.dom w).mpr h
      rw [hwn] at this
      exact absurd this (by simp)
    push_neg at hnot
    exact hnot
  have hdeep : ∀ v, D v = none → ∀ e, e ≤ cd → ¬ Reach g e g.source v := by
    intro v hv
    exact undiscovered_deep g P (cur :: rest) D R hinv cd hQge v hv
  have hnewdist : ∀ w ∈ newly, IsDist g g.source w (cd + 1) := by
    intro w hw
    obtain ⟨hwns, hwn⟩ := (hmem_newly w).mp hw
    have hwadj : w ∈ g.adjOf cur := by rw [← hns]; exact hwns
    refine ⟨⟨cur, hIc.1, hwadj⟩, ?_⟩
    intro e he
    exact hdeep w hwn e (by omega)
  have hrestD : ∀ b ∈ rest, (D b).isSome := by
    intro b hb
    exact (hinv.dom b).mpr (Or.inr (Or.inr (List.mem_cons_of_mem cur hb)))
  have hrestDval : ∀ a ∈ rest, Dval D2 a = Dval D a := by
    intro a ha
    exact hDval2_keep a (hrestD a ha)
  have hrest_ge : ∀ a ∈ rest, cd ≤ Dval D a := by
    intro a ha
    exact hQge a (List.mem_cons_of_mem cur ha)
  have hrest_band : ∀ a ∈ rest, Dval D a ≤ cd + 1 := by
    intro a ha
    have := hinv.q_band cur a rfl (List.mem_cons_of_mem cur ha)
    simpa [Dval, hdc] using this
  have hnewlyDval : ∀ b ∈ newly, Dval D2 b = cd + 1 := by
    intro b hb
    simp [Dval, hnewly_D2 b hb]
  have hq'2 : st.1 = rest ++ newly := hq'
  have hRcur_final : ∀ n, n ∈ (R cur).getD [] ↔ FirstHop g cur n :=
    pend_head_final g P cur rest D R hinv cd hdc
  have hR2cur : R2 cur = R cur := (hother cur hcur_ns).2
  have hdom2 : ∀ v, (D2 v).isSome ↔
      (v = g.source ∨ v ∈ insert cur P ∨ v ∈ rest ++ newly) := by
    intro v
    by_cases hv : v ∈ newly
    · rw [hnewly_D2 v hv]
      constructor
      · intro _
        exact Or.inr (Or.inr (List.mem_append_right rest hv))
      · intro _
        rfl
    · have hnotnew : ¬ (v ∈ ns ∧ D v = none) := fun h =>
        hv ((hmem_newly v).mpr h)
      have hD2v : D2 v = D v := by
        rw [hD2 v]
        by_cases h : v ∈ ns
        · rw [if_pos h, if_neg (fun hn => hnotnew ⟨h, hn⟩)]
        · rw [if_neg h]
      rw [hD2v, hinv.dom v]
      constructor
      · rintro (h | h | h)
        · exact Or.inl h
        · exact Or.inr (Or.inl (Finset.mem_insert_of_mem h))
        · rcases List.mem_cons.mp h with rfl | h2
          · exact Or.inr (Or.inl (Finset.mem_insert_self v P))
          · exact Or.inr (Or.inr (List.mem_append_left newly h2))
      · rintro (h | h | h)
        · exact Or.inl h
        · rcases Finset.mem_insert.mp h with rfl | h2
          · exact Or.inr (Or.inr hcurQ)
          · exact Or.inr (Or.inl h2)
        · rcases List.mem_append.mp h with h2 | h2
          · exact Or.inr (Or.inr (List.mem_cons_of_mem cur h2))
          · exact absurd h2 hv
  have hclosed2 : ∀ u, (u ∈ insert cur P ∨ u = g.source) →
      ∀ w ∈ g.adjOf u, (D2 w).isSome := by
    intro u hu w hw
    rcases hu with hu | hu
    · rcases Finset.mem_insert.mp hu with rfl | hu2
      · have hwns : w ∈ ns := by rw [hns]; exact hw
        rw [hD2 w, if_pos hwns]
        by_cases hn : D w = none
        · rw [if_pos hn]
          rfl
        · rw [if_neg hn]
          exact Option.isSome_iff_ne_none.mpr hn
      · exact hD2_some w (hinv.closed u (Or.inl hu2) w hw)
    · exact hD2_some w (hinv.closed u (Or.inr hu) w hw)
  have hdist2 : ∀ v k, D2 v = some k → IsDist g g.source v k := by
    intro v k hv
    by_cases hvnew : v ∈ newly
    · rw [hnewly_D2 v hvnew] at hv
      rw [← Option.some_inj.mp hv]
      exact hnewdist v hvnew
    · have hnotnew : ¬ (v ∈ ns ∧ D v = none) := fun h =>
        hvnew ((hmem_newly v).mpr h)
      have hD2v : D2 v = D v := by
        rw [hD2 v]
        by_cases h : v ∈ ns
        · rw [if_pos h, if_neg (fun hn => hnotnew ⟨h, hn⟩)]
        · rw [if_neg h]
      rw [hD2v] at hv
      exact hinv.dist_correct v k hv
  refine ⟨?_, hq'2, fun w => hD2_none_iff w⟩
  rw [hq'2]
  refine ⟨?_, ?_, ?_, hdom2, ?_, ?_, hclosed2, hdist2, ?_, ?_, ?_, ?_, ?_,
    ?_, ?_⟩
  · -- src_dist
    have hs : (D g.source).isSome := by simp [hinv.src_dist]
    rw [hD2_keep g.source hs]
    exact hinv.src_dist
  · -- src_notin_P
    rw [Finset.mem_insert]
    push_neg
    exact ⟨fun h => hcs h.symm, hinv.src_notin_P⟩
  · -- src_notin_Q
    intro h
    rcases List.mem_append.mp h with h2 | h2
    · exact hinv.src_notin_Q (List.mem_cons_of_mem cur h2)
    · exact (hnewly_fresh _ h2).1 rfl
  · -- q_nodup
    rw [List.nodup_append]
    refine ⟨(List.nodup_cons.mp hinv.q_nodup).2,
      List.Nodup.filter _ hnd_ns, ?_⟩
    intro a ha hb
    exact (hnewly_fresh a hb).2.2 (List.mem_cons_of_mem cur ha)
  · -- q_disj
    intro v hv
    rcases List.mem_append.mp hv with h | h
    · intro hmem
      rcases Finset.mem_insert.mp hmem with rfl | hP
      · exact hcurrest h
      · exact hinv.q_disj v (List.mem_cons_of_mem cur h) hP
    · intro hmem
      rcases Finset.mem_insert.mp hmem with rfl | hP
      · exact (hnewly_fresh v h).2.2 (List.mem_cons_self v rest)
      · exact (hnewly_fresh v h).2.1 hP
  · -- q_sorted
    rw [List.pairwise_append]
    refine ⟨?_, ?_, ?_⟩
    · have hrest := (List.pairwise_cons.mp hinv.q_sorted).2
      refine hrest.imp_of_mem ?_
      intro a b ha hb hab
      show Dval D2 a ≤ Dval D2 b
      rw [hrestDval a ha, hrestDval b hb]
      exact hab
    · rw [List.pairwise_iff_forall_sublist]
      intro a b hsub
      have ha : a ∈ newly := hsub.subset (by simp)
      have hb : b ∈ newly := hsub.subset (by simp)
      show Dval D2 a ≤ Dval D2 b
      rw [hnewlyDval a ha, hnewlyDval b hb]
    · intro a ha b hb
      show Dval D2 a ≤ Dval D2 b
      rw [hrestDval a ha, hnewlyDval b hb]
      have := hrest_band a ha
      omega
  · -- q_band
    intro a b ha hb
    have ha' : a ∈ rest ++ newly :=
      List.mem_of_mem_head? (Option.mem_def.mpr ha)
    have hage : cd ≤ Dval D2 a := by
      rcases List.mem_append.mp ha' with h | h
      · rw [hrestDval a h]
        exact hrest_ge a h
      · rw [hnewlyDval a h]
        omega
    rcases List.mem_append.mp hb with h | h
    · rw [hrestDval b h]
      have := hrest_band b h
      omega
    · rw [hnewlyDval b h]
      omega
  · -- pq_le
    intro u hu v hv
    have hvge : cd ≤ Dval D2 v := by
      rcases List.mem_append.mp hv with h | h
      · rw [hrestDval v h]
        exact hrest_ge v h
      · rw [hnewlyDval v h]
        omega
    rcases Finset.mem_insert.mp hu with rfl | huP
    · rw [hDval2cur]
      exact hvge
    · have hDu : (D u).isSome := (hinv.dom u).mpr (Or.inr (Or.inl huP))
      rw [hDval2_keep u hDu]
      have hle := hinv.pq_le u huP cur hcurQ
      have hcurval : Dval D cur = cd := by simp [Dval, hdc]
      omega
  · -- complete
    intro v k hk hbound
    by_cases hQ : rest ++ newly = ([] : List Nat)
    · have haux : ∀ m, ∀ x, IsDist g g.source x m →
          (x ∈ insert cur P ∨ x = g.source) := by
        intro m
        induction m with
        | zero =>
            intro x hx
            right
            exact hx.1.symm
        | succ e ih =>
            intro x hx
            obtain ⟨u, hu, hadj⟩ := isDist_pred g g.source x e hx
            have hup := ih u hu
            have hDx : (D2 x).isSome := by
              apply hclosed2 u ?_ x hadj
              rcases hup with h | h
              · exact Or.inl h
              · exact Or.inr h
            rcases (hdom2 x).mp hDx with h | h | h
            · right
              exact h
            · left
              exact h
            · rw [hQ] at h
              exact absurd h (List.not_mem_nil x)
      exact haux k v hk
    · obtain ⟨b0, hb0⟩ := List.exists_mem_of_ne_nil _ hQ
      have hb0le : Dval D2 b0 ≤ cd + 1 := by
        rcases List.mem_append.mp hb0 with h | h
        · rw [hrestDval b0 h]
          exact hrest_band b0 h
        · rw [hnewlyDval b0 h]
      have hkle : k ≤ cd := by
        have := hbound b0 hb0
        omega
      have hDv : (D v).isSome := by
        by_contra hnone
        have hn : D v = none := Option.not_isSome_iff_eq_none.mp hnone
        exact hdeep v hn k hkle hk.1
      rcases (hinv.dom v).mp hDv with h | h | h
      · right
        exact h
      · left
        exact Finset.mem_insert_of_mem h
      · rcases List.mem_cons.mp h with rfl | hvrest
        · left
          exact Finset.mem_insert_self v P
        · exfalso
          obtain ⟨dv, hdv⟩ := Option.isSome_iff_exists.mp hDv
          have hdvk : dv = k :=
            isDist_unique g g.source v dv k (hinv.dist_correct v dv hdv) hk
          subst hdvk
          have hlt := hbound v (List.mem_append_left newly hvrest)
          rw [hrestDval v hvrest] at hlt
          simp [Dval, hdv] at hlt
  · -- r_dom
    intro w
    rw [hR2 w, hD2 w]
    by_cases hwns : w ∈ ns
    · simp only [if_pos hwns]
      by_cases hn : D w = none
      · simp only [if_pos hn]
        have hwsrc : w ≠ g.source :=
          (hnewly_fresh w ((hmem_newly w).mpr ⟨hwns, hn⟩)).1
        simp [hwsrc]
      · simp only [if_neg hn]
        by_cases he : D w = some (cd + 1)
        · simp only [if_pos he]
          have hwsrc : w ≠ g.source := by
            intro h
            rw [h, hinv.src_dist] at he
            have := Option.some_inj.mp he
            omega
          rw [he]
          simp [hwsrc]
        · simp only [if_neg he]
          exact hinv.r_dom w
    · simp only [if_neg hwns]
      exact hinv.r_dom w
  · -- r_done
    intro u hu n
    rcases Finset.mem_insert.mp hu with rfl | huP
    · rw [hR2cur]
      exact hRcur_final n
    · have hDu : (D u).isSome := (hinv.dom u).mpr (Or.inr (Or.inl huP))
      have hno : D u ≠ none := Option.isSome_iff_ne_none.mp hDu
      have hne : D u ≠ some (cd + 1) := by
        intro h
        have hle := hinv.pq_le u huP cur hcurQ
        have hcurval : Dval D cur = cd := by simp [Dval, hdc]
        have huval : Dval D u = cd + 1 := by simp [Dval, h]
        omega
      have hR2u : R2 u = R u := by
        rw [hR2 u]
        by_cases hus : u ∈ ns
        · rw [if_pos hus, if_neg hno, if_neg hne]
        · rw [if_neg hus]
      rw [hR2u]
      exact hinv.r_done u huP n
  · -- r_pend
    intro w hw n
    rcases List.mem_append.mp hw with hwr | hwnew
    · have hwQ : w ∈ cur :: rest := List.mem_cons_of_mem cur hwr
      have hDw : (D w).isSome := (hinv.dom w).mpr (Or.inr (Or.inr hwQ))
      have hwnot1 : D w ≠ none := Option.isSome_iff_ne_none.mp hDw
      have hD2w : D2 w = D w := hD2_keep w hDw
      have hold := hinv.r_pend w hwQ n
      by_cases hmod : w ∈ ns ∧ D w = some (cd + 1)
      · obtain ⟨hwns, hweq⟩ := hmod
        have hwadj : w ∈ g.adjOf cur := by rw [← hns]; exact hwns
        have hR2w : R2 w
            = some (insertAll ((R cur).getD []) ((R w).getD [])) := by
          rw [hR2 w, if_pos hwns, if_neg hwnot1, if_pos hweq]
        rw [hR2w]
        simp only [Option.getD_some]
        rw [mem_insertAll]
        constructor
        · rintro (hn | hn)
          · right
            refine ⟨cur, Finset.mem_insert_self cur P, hwadj, ?_,
              (hRcur_final n).mp hn⟩
            rw [hDval2cur, hD2w]
            exact hweq
          · rcases hold.mp hn with ⟨h1, _⟩ | ⟨u, huP, hadj, hDw2, hfh⟩
            · rw [hweq] at h1
              exact absurd (Option.some_inj.mp h1) (by omega)
            · right
              have hDu : (D u).isSome :=
                (hinv.dom u).mpr (Or.inr (Or.inl huP))
              refine ⟨u, Finset.mem_insert_of_mem huP, hadj, ?_, hfh⟩
              rw [hD2w, hDval2_keep u hDu]
              exact hDw2
        · rintro (⟨h1, _⟩ | ⟨u, hu, hadj, hDw2, hfh⟩)
          · rw [hD2w, hweq] at h1
            exact absurd (Option.some_inj.mp h1) (by omega)
          · rcases Finset.mem_insert.mp hu with rfl | huP
            · left
              exact (hRcur_final n).mpr hfh
            · right
              apply hold.mpr
              right
              have hDu : (D u).isSome :=
                (hinv.dom u).mpr (Or.inr (Or.inl huP))
              refine ⟨u, huP, hadj, ?_, hfh⟩
              rw [← hD2w, hDw2, hDval2_keep u hDu]
      · push_neg at hmod
        have hR2w : R2 w = R w := by
          rw [hR2 w]
          by_cases hwns : w ∈ ns
          · rw [if_pos hwns, if_neg hwnot1, if_neg (hmod hwns)]
          · rw [if_neg hwns]
        rw [hR2w, hold]
        constructor
        · rintro (⟨h1, h2⟩ | ⟨u, huP, hadj, hDw2, hfh⟩)
          · left
            exact ⟨by rw [hD2w]; exact h1, h2⟩
          · right
            have hDu : (D u).isSome :=
              (hinv.dom u).mpr (Or.inr (Or.inl huP))
            refine ⟨u, Finset.mem_insert_of_mem huP, hadj, ?_, hfh⟩
            rw [hD2w, hDval2_keep u hDu]
            exact hDw2
        · rintro (⟨h1, h2⟩ | ⟨u, hu, hadj, hDw2, hfh⟩)
          · left
            refine ⟨?_, h2⟩
            rw [hD2w] at h1
            exact h1
          · rcases Finset.mem_insert.mp hu with rfl | huP
            · exfalso
              have hwns : w ∈ ns := by rw [hns]; exact hadj
              apply hmod hwns
              rw [← hD2w, hDw2, hDval2cur]
            · right
              have hDu : (D u).isSome :=
                (hinv.dom u).mpr (Or.inr (Or.inl huP))
              refine ⟨u, huP, hadj, ?_, hfh⟩
              rw [← hD2w, hDw2, hDval2_keep u hDu]
    · obtain ⟨hwns, hwnone⟩ := (hmem_newly w).mp hwnew
      have hwadj : w ∈ g.adjOf cur := by rw [← hns]; exact hwns
      have hR2w : R2 w = some (insertAll ((R cur).getD []) []) := by
        rw [hR2 w, if_pos hwns, if_pos hwnone]
      have hD2w : D2 w = some (cd + 1) := hnewly_D2 w hwnew
      rw [hR2w]
      simp only [Option.getD_some]
      rw [mem_insertAll]
      constructor
      · rintro (hn | hn)
        · right
          refine ⟨cur, Finset.mem_insert_self cur P, hwadj, ?_,
            (hRcur_final n).mp hn⟩
          rw [hD2w, hDval2cur]
        · exact absurd hn (List.not_mem_nil n)
      · rintro (⟨h1, _⟩ | ⟨u, hu, hadj, hDw2, hfh⟩)
        · rw [hD2w] at h1
          exact absurd (Option.some_inj.mp h1) (by omega)
        · rcases Finset.mem_insert.mp hu with rfl | huP
          · left
            exact (hRcur_final n).mpr hfh
          · exfalso
            have hclosed := hinv.closed u (Or.inl huP) w hadj
            rw [hwnone] at hclosed
            exact absurd hclosed (by simp)

end NearRouting

namespace NearRouting

theorem bfsLoop_empty (g : Graph) (hg : GraphOK g) (K : Finset Nat)
    (hadjK : ∀ u w, w ∈ g.adjOf u → w ∈ K) :
    ∀ (fuel : Nat) (P : Finset Nat) (Q : List Nat) (dist : HMap Nat Nat)
      (routes : HMap Nat (List Nat)),
      BfsInv g P Q dist.find routes.find →
      (∀ v ∈ Q, v ∈ K) → P ⊆ K → K.card ≤ fuel + P.card →
      ∃ Pf, BfsInv g Pf []
        (bfsLoop g fuel Q dist routes).1.find
        (bfsLoop g fuel Q dist routes).2.find := by
  intro fuel
  induction fuel with
  | zero =>
      intro P Q dist routes hinv hQK hPK hcard
      cases Q with
      | nil => exact ⟨P, hinv⟩
      | cons cur rest =>
          exfalso
          have hcurK : cur ∈ K := hQK cur (List.mem_cons_self cur rest)
          have hcurP : cur ∉ P := hinv.q_disj cur (List.mem_cons_self cur rest)
          have hlt : P.card < K.card :=
            Finset.card_lt_card ((Finset.ssubset_iff_of_subset hPK).mpr
              ⟨cur, hcurK, hcurP⟩)
          omega
  | succ fuel ih =>
      intro P Q dist routes hinv hQK hPK hcard
      cases Q with
      | nil => exact ⟨P, hinv⟩
      | cons cur rest =>
          have hcurQ : cur ∈ cur :: rest := List.mem_cons_self cur rest
          have hDcur : (dist.find cur).isSome :=
            (hinv.dom cur).mpr (Or.inr (Or.inr hcurQ))
          obtain ⟨cd, hdc⟩ := Option.isSome_iff_exists.mp hDcur
          have hgd : (dist.find cur).getD 0 = cd := by rw [hdc]; rfl
          obtain ⟨hinv2, hq2, _⟩ :=
            bfs_preserve g hg P cur rest dist routes hinv cd hdc
          have hred : bfsLoop g (fuel + 1) (cur :: rest) dist routes
              = bfsLoop g fuel
                  ((g.adjOf cur).foldl (bfsStep cur cd)
                    (rest, dist, routes)).1
                  ((g.adjOf cur).foldl (bfsStep cur cd)
                    (rest, dist, routes)).2.1
                  ((g.adjOf cur).foldl (bfsStep cur cd)
                    (rest, dist, routes)).2.2 := by
            show bfsLoop g fuel
                ((g.adjOf cur).foldl (bfsStep cur ((dist.find cur).getD 0))
                  (rest, dist, routes)).1
                ((g.adjOf cur).foldl (bfsStep cur ((dist.find cur).getD 0))
                  (rest, dist, routes)).2.1
                ((g.adjOf cur).foldl (bfsStep cur ((dist.find cur).getD 0))
                  (rest, dist, routes)).2.2
              = _
            rw [hgd]
          rw [hred]
          apply ih (insert cur P) _ _ _ hinv2
          · intro v hv
            rw [hq2] at hv
            rcases List.mem_append.mp hv with h | h
            · exact hQK v (List.mem_cons_of_mem cur h)
            · exact hadjK cur v (List.mem_of_mem_filter h)
          · intro v hv
            rcases Finset.mem_insert.mp hv with rfl | h
            · exact hQK v hcurQ
            · exact hPK h
          · have hcurP : cur ∉ P := hinv.q_disj cur hcurQ
            rw [Finset.card_insert_of_not_mem hcurP]
            omega

end NearRouting

namespace NearRouting

theorem bfs_init (g : Graph) (hg : GraphOK g) :
    BfsInv g ∅
      ((g.adjOf g.source).foldl
        (fun (st : List Nat × HMap Nat Nat × HMap Nat (List Nat))
            neighbor =>
          (st.1 ++ [neighbor], st.2.1.insert neighbor 1,
           st.2.2.insert neighbor [neighbor]))
        ([], HMap.empty.insert g.source 0,
         (HMap.empty : HMap Nat (List Nat)))).1
      ((g.adjOf g.source).foldl
        (fun (st : List Nat × HMap Nat Nat × HMap Nat (List Nat))
            neighbor =>
          (st.1 ++ [neighbor], st.2.1.insert neighbor 1,
           st.2.2.insert neighbor [neighbor]))
        ([], HMap.empty.insert g.source 0,
         (HMap.empty : HMap Nat (List Nat)))).2.1.find
      ((g.adjOf g.source).foldl
        (fun (st : List Nat × HMap Nat Nat × HMap Nat (List Nat))
            neighbor =>
          (st.1 ++ [neighbor], st.2.1.insert neighbor 1,
           st.2.2.insert neighbor [neighbor]))
        ([], HMap.empty.insert g.source 0,
         (HMap.empty : HMap Nat (List Nat)))).2.2.find ∧
    ((g.adjOf g.source).foldl
        (fun (st : List Nat × HMap Nat Nat × HMap Nat (List Nat))
            neighbor =>
          (st.1 ++ [neighbor], st.2.1.insert neighbor 1,
           st.2.2.insert neighbor [neighbor]))
        ([], HMap.empty.insert g.source 0,
         (HMap.empty : HMap Nat (List Nat)))).1 = g.adjOf g.source := by
  obtain ⟨hq, hother, hat⟩ := seedFold_desc (g.adjOf g.source) []
    (HMap.empty.insert g.source 0) (HMap.empty : HMap Nat (List Nat))
  set ns := g.adjOf g.source with hns
  set I := ns.foldl
    (fun (st : List Nat × HMap Nat Nat × HMap Nat (List Nat)) neighbor =>
      (st.1 ++ [neighbor], st.2.1.insert neighbor 1,
       st.2.2.insert neighbor [neighbor]))
    ([], HMap.empty.insert g.source 0,
     (HMap.empty : HMap Nat (List Nat))) with hI
  set D1 := I.2.1.find with hD1def
  set R1 := I.2.2.find with hR1def
  have hqI : I.1 = ns := by simpa using hq
  have hsrcns : g.source ∉ ns := hg.no_loop g.source
  have hD1 : ∀ w, D1 w
      = if w ∈ ns then some 1
        else (if w = g.source then some 0 else none) := by
    intro w
    by_cases h : w ∈ ns
    · rw [if_pos h]
      exact (hat w h).1
    · rw [if_neg h, (hother w h).1]
      rfl
  have hR1 : ∀ w, R1 w = if w ∈ ns then some [w] else none := by
    intro w
    by_cases h : w ∈ ns
    · rw [if_pos h]
      exact (hat w h).2
    · rw [if_neg h, (hother w h).2]
      rfl
  have hD1src : D1 g.source = some 0 := by
    rw [hD1 g.source, if_neg hsrcns, if_pos rfl]
  have hD1mem : ∀ w ∈ ns, D1 w = some 1 := by
    intro w hw
    rw [hD1 w, if_pos hw]
  have hDval1 : ∀ w ∈ ns, Dval D1 w = 1 := by
    intro w hw
    simp [Dval, hD1mem w hw]
  have hne_src : ∀ w ∈ ns, w ≠ g.source := by
    intro w hw h
    exact hsrcns (h ▸ hw)
  refine ⟨?_, hqI⟩
  rw [hqI]
  refine ⟨hD1src, Finset.not_mem_empty g.source, hsrcns, ?_,
    hg.adj_nodup g.source, fun v _ => Finset.not_mem_empty v, ?_, ?_, ?_, ?_,
    ?_, ?_, ?_, ?_, ?_⟩
  · -- dom
    intro v
    rw [hD1 v]
    by_cases h : v ∈ ns
    · rw [if_pos h]
      constructor
      · intro _
        exact Or.inr (Or.inr h)
      · intro _
        rfl
    · rw [if_neg h]
      by_cases hs : v = g.source
      · rw [if_pos hs]
        constructor
        · intro _
          exact Or.inl hs
        · intro _
          rfl
      · rw [if_neg hs]
        constructor
        · intro habs
          exact absurd habs (by simp)
        · rintro (h2 | h2 | h2)
          · exact absurd h2 hs
          · exact absurd h2 (Finset.not_mem_empty v)
          · exact absurd h2 h
  · -- closed
    intro u hu w hw
    rcases hu with hu | hu
    · exact absurd hu (Finset.not_mem_empty u)
    · subst hu
      have hwns : w ∈ ns := by rw [hns]; exact hw
      rw [hD1mem w hwns]
      rfl
  · -- dist_correct
    intro v k hv
    rw [hD1 v] at hv
    by_cases h : v ∈ ns
    · rw [if_pos h] at hv
      have hk1 : k = 1 := (Option.some_inj.mp hv).symm
      subst hk1
      have hvadj : v ∈ g.adjOf g.source := by rw [← hns]; exact h
      exact isDist_one g g.source v hvadj (hne_src v h)
    · rw [if_neg h] at hv
      by_cases hs : v = g.source
      · rw [if_pos hs] at hv
        have hk0 : k = 0 := (Option.some_inj.mp hv).symm
        subst hk0
        subst hs
        exact isDist_zero g g.source
      · rw [if_neg hs] at hv
        exact absurd hv (by simp)
  · -- q_sorted
    rw [List.pairwise_iff_forall_sublist]
    intro a b hsub
    have ha : a ∈ ns := hsub.subset (by simp)
    have hb : b ∈ ns := hsub.subset (by simp)
    show Dval D1 a ≤ Dval D1 b
    rw [hDval1 a ha, hDval1 b hb]
  · -- q_band
    intro a b ha hb
    have ha' : a ∈ ns := List.mem_of_mem_head? (Option.mem_def.mpr ha)
    rw [hDval1 a ha', hDval1 b hb]
    omega
  · -- pq_le
    intro u hu
    exact absurd hu (Finset.not_mem_empty u)
  · -- complete
    intro v k hk hbound
    cases k with
    | zero =>
        right
        exact hk.1.symm
    | succ e =>
        exfalso
        obtain ⟨w, hwns, _⟩ := reach_front g e g.source v hk.1
        have hlt := hbound w hwns
        rw [hDval1 w hwns] at hlt
        omega
  · -- r_dom
    intro w
    rw [hR1 w, hD1 w]
    by_cases h : w ∈ ns
    · rw [if_pos h, if_pos h]
      constructor
      · intro _
        exact ⟨rfl, hne_src w h⟩
      · intro _
        rfl
    · rw [if_neg h, if_neg h]
      by_cases hs : w = g.source
      · rw [if_pos hs]
        constructor
        · intro habs
          exact absurd habs (by simp)
        · rintro ⟨_, hne⟩
          exact absurd hs hne
      · rw [if_neg hs]
        constructor
        · intro habs
          exact absurd habs (by simp)
        · rintro ⟨habs, _⟩
          exact absurd habs (by simp)
  · -- r_done
    intro u hu
    exact absurd hu (Finset.not_mem_empty u)
  · -- r_pend
    intro w hw n
    rw [hR1 w, if_pos hw]
    simp only [Option.getD_some, List.mem_singleton]
    constructor
    · intro h
      left
      exact ⟨hD1mem w hw, h⟩
    · rintro (⟨_, h⟩ | ⟨u, hu, _⟩)
      · exact h
      · exact absurd hu (Finset.not_mem_empty u)

end NearRouting

namespace NearRouting

theorem bfsStep_rmapOK (cur cd : Nat)
    (st : List Nat × HMap Nat Nat × HMap Nat (List Nat)) (x : Nat)
    (h : ∀ w, (st.2.2.find w).isSome → w ∈ st.2.2.keys) :
    ∀ w, ((bfsStep cur cd st x).2.2.find w).isSome →
      w ∈ (bfsStep cur cd st x).2.2.keys := by
  rcases st with ⟨q, d, r⟩
  intro w hw
  by_cases hwx : w = x
  · subst hwx
    by_cases hn : d.find w = none
    · simp [bfsStep, hn, HMap.insert, List.mem_insert_iff]
    · by_cases he : d.find w = some (cd + 1)
      · simp [bfsStep, hn, he, HMap.insert, Option.isNone_iff_eq_none,
          List.mem_insert_iff]
      · simp only [bfsStep] at hw ⊢
        simp [hn, he, Option.isNone_iff_eq_none] at hw ⊢
        exact h w hw
  · have hfind := bfsStep_r_other cur cd (q, d, r) x w hwx
    rw [hfind] at hw
    have hmem := h w hw
    by_cases hn : d.find x = none
    · simp [bfsStep, hn, HMap.insert, List.mem_insert_iff]
      tauto
    · by_cases he : d.find x = some (cd + 1)
      · simp [bfsStep, hn, he, HMap.insert, Option.isNone_iff_eq_none,
          List.mem_insert_iff]
        tauto
      · simp [bfsStep, hn, he, HMap.insert, Option.isNone_iff_eq_none]
        exact hmem

theorem bfsVisit_rmapOK (cur cd : Nat) :
    ∀ (ns q : List Nat) (d : HMap Nat Nat) (r : HMap Nat (List Nat)),
      (∀ w, (r.find w).isSome → w ∈ r.keys) →
      ∀ w, ((ns.foldl (bfsStep cur cd) (q, d, r)).2.2.find w).isSome →
        w ∈ (ns.foldl (bfsStep cur cd) (q, d, r)).2.2.keys := by
  intro ns
  induction ns with
  | nil =>
      intro q d r h
      exact h
  | cons x rest ih =>
      intro q d r h
      have h1 := bfsStep_rmapOK cur cd (q, d, r) x h
      exact ih (bfsStep cur cd (q, d, r) x).1
        (bfsStep cur cd (q, d, r) x).2.1
        (bfsStep cur cd (q, d, r) x).2.2 h1

theorem bfsLoop_rmapOK (g : Graph) :
    ∀ (fuel : Nat) (Q : List Nat) (d : HMap Nat Nat)
      (r : HMap Nat (List Nat)),
      (∀ w, (r.find w).isSome → w ∈ r.keys) →
      ∀ w, ((bfsLoop g fuel Q d r).2.find w).isSome →
        w ∈ (bfsLoop g fuel Q d r).2.keys := by
  intro fuel
  induction fuel with
  | zero =>
      intro Q d r h
      cases Q with
      | nil => exact h
      | cons c rest => exact h
  | succ fuel ih =>
      intro Q d r h
      cases Q with
      | nil => exact h
      | cons c rest =>
          exact ih _ _ _
            (bfsVisit_rmapOK c ((d.find c).getD 0) (g.adjOf c) rest d r h)

theorem seedFold_rmapOK :
    ∀ (ns q : List Nat) (d : HMap Nat Nat) (r : HMap Nat (List Nat)),
      (∀ w, (r.find w).isSome → w ∈ r.keys) →
      ∀ w, ((ns.foldl
          (fun (st : List Nat × HMap Nat Nat × HMap Nat (List Nat))
              neighbor =>
            (st.1 ++ [neighbor], st.2.1.insert neighbor 1,
             st.2.2.insert neighbor [neighbor]))
          (q, d, r)).2.2.find w).isSome →
        w ∈ (ns.foldl
          (fun (st : List Nat × HMap Nat Nat × HMap Nat (List Nat))
              neighbor =>
            (st.1 ++ [neighbor], st.2.1.insert neighbor 1,
             st.2.2.insert neighbor [neighbor]))
          (q, d, r)).2.2.keys := by
  intro ns
  induction ns with
  | nil =>
      intro q d r h
      exact h
  | cons x rest ih =>
      intro q d r h
      have h1 : ∀ w, ((r.insert x [x]).find w).isSome →
          w ∈ (r.insert x [x]).keys := by
        intro w hw
        by_cases hwx : w = x
        · subst hwx
          simp [HMap.insert, List.mem_insert_iff]
        · simp [HMap.insert, hwx] at hw ⊢
          exact h w hw
      exact ih (q ++ [x]) (d.insert x 1) (r.insert x [x]) h1

end NearRouting

namespace NearRouting

/-- C4: for every graph with symmetric adjacency and no self-loops,
calculate_distance returns a map holding an entry for exactly the peers
reachable from the source other than the source itself; the entry of such a
peer t lists exactly the source's direct neighbors n with
dist(source, n) = 1 and dist(n, t) = dist(source, t) - 1 (the spec-side
FirstHop predicate); and the key list of the returned map consists of
exactly the reachable non-source peers as well. -/
theorem calculate_distance_spec (g : Graph) (hg : GraphOK g) :
    (∀ t, (∃ hops, (g.calculate_distance).find t = some hops)
        ↔ (t ≠ g.source ∧ Reachable g g.source t)) ∧
    (∀ t hops n, (g.calculate_distance).find t = some hops →
        (n ∈ hops ↔ FirstHop g t n)) ∧
    (∀ t, t ∈ (g.calculate_distance).keys
        ↔ (t ≠ g.source ∧ Reachable g g.source t)) := by
  obtain ⟨hinvI, hqI⟩ := bfs_init g hg
  set I := (g.adjOf g.source).foldl
    (fun (st : List Nat × HMap Nat Nat × HMap Nat (List Nat)) neighbor =>
      (st.1 ++ [neighbor], st.2.1.insert neighbor 1,
       st.2.2.insert neighbor [neighbor]))
    ([], HMap.empty.insert g.source 0,
     (HMap.empty : HMap Nat (List Nat))) with hI
  have hadjK : ∀ u w, w ∈ g.adjOf u → w ∈ g.adjacency.keys.toFinset := by
    intro u w hw
    have hu : u ∈ g.adjOf w := hg.sym u w hw
    rw [List.mem_toFinset]
    unfold Graph.adjOf at hu
    cases hfind2 : g.adjacency.find w with
    | none =>
        rw [hfind2] at hu
        simp at hu
    | some l => exact hg.coherent w l hfind2
  have hQK0 : ∀ v ∈ I.1, v ∈ g.adjacency.keys.toFinset := by
    intro v hv
    rw [hqI] at hv
    exact hadjK g.source v hv
  have hcard : g.adjacency.keys.toFinset.card
      ≤ g.adjacency.keys.length + (∅ : Finset Nat).card := by
    have := List.toFinset_card_le g.adjacency.keys
    simp
    omega
  obtain ⟨Pf, hfin⟩ := bfsLoop_empty g hg g.adjacency.keys.toFinset hadjK
    g.adjacency.keys.length ∅ I.1 I.2.1 I.2.2 hinvI hQK0
    (Finset.empty_subset _) hcard
  set F := bfsLoop g g.adjacency.keys.length I.1 I.2.1 I.2.2 with hF
  set Df := F.1.find with hDfdef
  set Rf := F.2.find with hRfdef
  have hfind : ∀ t, (g.calculate_distance).find t
      = match Rf t with
        | some hops => if hops.isEmpty then none else some hops
        | none => none := fun t => rfl
  have hkeys : (g.calculate_distance).keys
      = F.2.keys.filter (fun w => !((Rf w).getD []).isEmpty) := rfl
  have hbase : ∀ w, ((HMap.empty : HMap Nat (List Nat)).find w).isSome →
      w ∈ (HMap.empty : HMap Nat (List Nat)).keys := by
    intro w hw
    exact absurd hw (by simp [HMap.empty])
  have hcohI : ∀ w, (I.2.2.find w).isSome → w ∈ I.2.2.keys :=
    seedFold_rmapOK (g.adjOf g.source) [] (HMap.empty.insert g.source 0)
      (HMap.empty : HMap Nat (List Nat)) hbase
  have hcohF : ∀ w, (Rf w).isSome → w ∈ F.2.keys :=
    bfsLoop_rmapOK g g.adjacency.keys.length I.1 I.2.1 I.2.2 hcohI
  have hdomF : ∀ v, (Df v).isSome ↔ (v = g.source ∨ v ∈ Pf) := by
    intro v
    rw [hfin.dom v]
    constructor
    · rintro (h | h | h)
      · exact Or.inl h
      · exact Or.inr h
      · exact absurd h (List.not_mem_nil v)
    · rintro (h | h)
      · exact Or.inl h
      · exact Or.inr (Or.inl h)
  have hcompF : ∀ v k, IsDist g g.source v k → (v ∈ Pf ∨ v = g.source) := by
    intro v k hk
    exact hfin.complete v k hk (fun b hb => absurd hb (List.not_mem_nil b))
  have fwd : ∀ t hops, Rf t = some hops →
      (t ≠ g.source ∧ Reachable g g.source t) ∧
      (∀ n, n ∈ hops ↔ FirstHop g t n) := by
    intro t hops hRt
    have hRsome : (Rf t).isSome := by simp [hRt]
    obtain ⟨hDt, htns⟩ := (hfin.r_dom t).mp hRsome
    have htP : t ∈ Pf := by
      rcases (hdomF t).mp hDt with h | h
      · exact absurd h htns
      · exact h
    obtain ⟨k, hk⟩ := Option.isSome_iff_exists.mp hDt
    have hreach : Reachable g g.source t := ⟨k, (hfin.dist_correct t k hk).1⟩
    refine ⟨⟨htns, hreach⟩, ?_⟩
    intro n
    have hmem := hfin.r_done t htP n
    rw [hRt] at hmem
    simpa using hmem
  have bwd : ∀ t, t ≠ g.source → Reachable g g.source t →
      ∃ hops, Rf t = some hops ∧ (∀ n, n ∈ hops ↔ FirstHop g t n) ∧
        hops ≠ [] := by
    intro t htns hreach
    obtain ⟨dt, hdt, _⟩ := exists_isDist g g.source t hreach
    have htP : t ∈ Pf := by
      rcases hcompF t dt hdt with h | h
      · exact h
      · exact absurd h htns
    have hDt : (Df t).isSome := (hdomF t).mpr (Or.inr htP)
    have hRt : (Rf t).isSome := (hfin.r_dom t).mpr ⟨hDt, htns⟩
    obtain ⟨hops, hhops⟩ := Option.isSome_iff_exists.mp hRt
    have hiff : ∀ n, n ∈ hops ↔ FirstHop g t n := by
      intro n
      have hmem := hfin.r_done t htP n
      rw [hhops] at hmem
      simpa using hmem
    have hdt1 : 1 ≤ dt := by
      rcases Nat.eq_zero_or_pos dt with h0 | h
      · subst h0
        exact absurd hdt.1.symm htns
      · exact h
    obtain ⟨n0, hn0⟩ := firstHop_nonempty g dt t hdt1 hdt
    refine ⟨hops, hhops, hiff, ?_⟩
    intro hnil
    subst hnil
    exact absurd ((hiff n0).mpr hn0) (List.not_mem_nil n0)
  refine ⟨?_, ?_, ?_⟩
  · intro t
    constructor
    · rintro ⟨hops, hfh⟩
      rw [hfind t] at hfh
      cases hRt : Rf t with
      | none =>
          rw [hRt] at hfh
          have h2 : (none : Option (List Nat)) = some hops := hfh
          exact Option.noConfusion h2
      | some l =>
          exact (fwd t l hRt).1
    · rintro ⟨htns, hreach⟩
      obtain ⟨hops, hhops, hiff, hne⟩ := bwd t htns hreach
      refine ⟨hops, ?_⟩
      rw [hfind t, hhops]
      have hempty : hops.isEmpty = false := by
        cases hops with
        | nil => exact absurd rfl hne
        | cons a l => rfl
      show (if hops.isEmpty then none else some hops) = some hops
      rw [hempty]
      rfl
  · intro t hops n hsome
    rw [hfind t] at hsome
    cases hRt : Rf t with
    | none =>
        rw [hRt] at hsome
        have h2 : (none : Option (List Nat)) = some hops := hsome
        exact Option.noConfusion h2
    | some l =>
        rw [hRt] at hsome
        have h2 : (if l.isEmpty then none else some l) = some hops := hsome
        by_cases hl : l.isEmpty
        · rw [if_pos hl] at h2
          exact Option.noConfusion h2
        · rw [if_neg hl] at h2
          have hl2 : l = hops := Option.some_inj.mp h2
          subst hl2
          exact (fwd t l hRt).2 n
  · intro t
    rw [hkeys, List.mem_filter]
    constructor
    · rintro ⟨hmem, hfilt⟩
      have hfilt2 : (!((Rf t).getD []).isEmpty) = true := hfilt
      have hne : ((Rf t).getD []) ≠ [] := by
        intro h
        rw [h] at hfilt2
        simp at hfilt2
      cases hRt : Rf t with
      | none =>
          rw [hRt] at hne
          simp at hne
      | some l =>
          exact (fwd t l hRt).1
    · rintro ⟨htns, hreach⟩
      obtain ⟨hops, hhops, hiff, hne⟩ := bwd t htns hreach
      have hempty : hops.isEmpty = false := by
        cases hops with
        | nil => exact absurd rfl hne
        | cons a l => rfl
      refine ⟨?_, ?_⟩
      · apply hcohF t
        simp [hhops]
      · show (!((Rf t).getD []).isEmpty) = true
        rw [hhops]
        simp [hempty]

end NearRouting

namespace NearRouting

/-- Two-peer graph (source 0, single edge 0-1) used to instantiate the BFS
specification at a concrete input. -/
def gW : Graph := (Graph.new 0).add_edge 0 1

theorem gW_adjOf : ∀ v, gW.adjOf v
    = if v = 1 then [0] else if v = 0 then [1] else [] := by
  intro v
  by_cases h1 : v = 1
  · subst h1
    rfl
  · by_cases h0 : v = 0
    · subst h0
      rfl
    · rw [if_neg h1, if_neg h0]
      show (gW.adjacency.find v).getD [] = []
      have h2 : gW.adjacency.find v
          = (if v = 1 then some [0]
             else if v = 0 then some [1] else none) := rfl
      rw [h2, if_neg h1, if_neg h0]
      rfl

theorem gW_ok : GraphOK gW := by
  refine ⟨?_, ?_, ?_, ?_⟩
  · intro v l h
    by_cases h1 : v = 1
    · subst h1
      have hm : (1 : Nat) ∈ [1, 0] := by decide
      exact hm
    · by_cases h0 : v = 0
      · subst h0
        have hm : (0 : Nat) ∈ [1, 0] := by decide
        exact hm
      · exfalso
        have h2 : (if v = 1 then some [0]
            else if v = 0 then some [1]
            else (none : Option (List Nat))) = some l := h
        rw [if_neg h1, if_neg h0] at h2
        exact Option.noConfusion h2
  · intro u v hv
    rw [gW_adjOf u] at hv
    by_cases hu1 : u = 1
    · rw [if_pos hu1] at hv
      have hv0 : v = 0 := by simpa using hv
      subst hu1
      subst hv0
      rw [gW_adjOf 0]
      decide
    · rw [if_neg hu1] at hv
      by_cases hu0 : u = 0
      · rw [if_pos hu0] at hv
        have hv1 : v = 1 := by simpa using hv
        subst hu0
        subst hv1
        rw [gW_adjOf 1]
        decide
      · rw [if_neg hu0] at hv
        exact absurd hv (List.not_mem_nil v)
  · intro u
    rw [gW_adjOf u]
    by_cases h1 : u = 1
    · rw [if_pos h1]
      decide
    · rw [if_neg h1]
      by_cases h0 : u = 0
      · rw [if_pos h0]
        decide
      · rw [if_neg h0]
        exact List.nodup_nil
  · intro u
    rw [gW_adjOf u]
    by_cases h1 : u = 1
    · rw [if_pos h1]
      subst h1
      decide
    · rw [if_neg h1]
      by_cases h0 : u = 0
      · rw [if_pos h0]
        subst h0
        decide
      · rw [if_neg h0]
        exact List.not_mem_nil u

/-- Witness for C4: the specification instantiated at the concrete
two-peer graph, with its well-formedness hypothesis discharged. -/
theorem calculate_distance_spec_witness :
    GraphOK gW ∧
    ((∀ t, (∃ hops, (gW.calculate_distance).find t = some hops)
        ↔ (t ≠ gW.source ∧ Reachable gW gW.source t)) ∧
     (∀ t hops n, (gW.calculate_distance).find t = some hops →
        (n ∈ hops ↔ FirstHop gW t n)) ∧
     (∀ t, t ∈ (gW.calculate_distance).keys
        ↔ (t ≠ gW.source ∧ Reachable gW gW.source t))) :=
  ⟨gW_ok, calculate_distance_spec gW gW_ok⟩

end NearRouting
